import Mathlib

/-!
# Byte-buffer primitives and base-N integer conversion

A shallow embedding of `src/memory.c`, `src/data.c` and `src/stats.c`.

* Memory is one flat address space: a map from addresses to bytes.  Pointers are
  addresses (natural numbers); pointer arithmetic is addition.
* `int32_t` values are integers, re-normalised with `wrapI32` after every
  arithmetic step; `uint32_t` values are naturals below `2^32`, obtained from an
  `int32_t` by `toU32` (the usual arithmetic conversion).
* `uint8_t` counters are naturals reduced modulo 256.
* Loops whose trip count is not an argument run on fuel and return `none` when
  the fuel is exhausted.
-/

namespace EmbeddedC

/-- A flat byte-addressed memory. -/
abbrev Mem := Nat → Nat

/-- Assignment `*a = v`. -/
def store (m : Mem) (a v : Nat) : Mem := fun x => if x = a then v else m x

/-- The `n` bytes found at addresses `p, p+1, ..., p+n-1`. -/
def readBytes (m : Mem) (p : Nat) : Nat → List Nat
  | 0 => []
  | n + 1 => m p :: readBytes m (p + 1) n

/-- Memory after the bytes of a list have been laid out from address `p` on. -/
def writeList (m : Mem) (p : Nat) : List Nat → Mem
  | [] => m
  | x :: xs => writeList (store m p x) (p + 1) xs

/-- Conversion of an `int32_t` to `uint32_t`. -/
def toU32 (x : Int) : Nat := (x % 4294967296).toNat

/-- Reduction of an integer to the `int32_t` range (two's complement wrap-around). -/
def wrapI32 (x : Int) : Int := (x + 2147483648) % 4294967296 - 2147483648

/-- Value of `EINVAL` in `<errno.h>`. -/
def EINVAL : Nat := 22

def BASE_2 : Nat := 2
def BASE_8 : Nat := 8
def BASE_10 : Nat := 10
def BASE_16 : Nat := 16

/-- Size of the scratch array `start_str` of `my_itoa`. -/
def MAX_LEN : Nat := 32 + 1

/-- Width of `size_t` in bits. -/
def SIZE_BITS : Nat := 64

/-! ## memory.c -/

/-- Backward loop of `my_memmove`: `while(length--) { dst--; src--; *dst = *src; }`. -/
def memmove_bwd (m : Mem) (src dst : Nat) : Nat → Mem × Nat
  | 0 => (m, dst)
  | length + 1 => memmove_bwd (store m (dst - 1) (m (src - 1))) (src - 1) (dst - 1) length

/-- Forward loop of `my_memmove`: `while(length--) { *dst = *src; dst++; src++; }`. -/
def memmove_fwd (m : Mem) (src dst : Nat) : Nat → Mem × Nat
  | 0 => (m, dst)
  | length + 1 => memmove_fwd (store m dst (m src)) (src + 1) (dst + 1) length

/-- The function `my_memmove`: final memory and returned pointer. -/
def my_memmove (m : Mem) (src dst length : Nat) : Mem × Nat :=
  if src = dst then (m, dst)
  else if src < dst ∧ dst < src + length then
    memmove_bwd m (src + length) (dst + length) length
  else memmove_fwd m src dst length

/-- Loop of `my_memcopy`: `while(length--) { *p = *source; p++; source++; }`. -/
def memcopy_loop (m : Mem) (source p : Nat) : Nat → Mem
  | 0 => m
  | length + 1 => memcopy_loop (store m p (m source)) (source + 1) (p + 1) length

/-- The function `my_memcopy`: final memory and returned pointer (`dst`). -/
def my_memcopy (m : Mem) (src dst length : Nat) : Mem × Nat :=
  (memcopy_loop m src dst length, dst)

/-- Loop of `my_reverse`; `i` is the `uint8_t` counter, `length` the decremented
`size_t` argument and `source` the moving pointer. -/
def reverse_loop (src lim : Nat) : Nat → Mem → Nat → Nat → Nat → Option Mem
  | 0, _, _, _, _ => none
  | fuel + 1, m, i, length, source =>
    if i < lim then
      let length1 := (length + 2 ^ SIZE_BITS - 1) % 2 ^ SIZE_BITS
      let tmp := m source
      let m1 := store m source (m (src + length1))
      let m2 := store m1 (src + length1) tmp
      reverse_loop src lim fuel m2 ((i + 1) % 256) length1 (source + 1)
    else some m

/-- The function `my_reverse` (its returned pointer is `src`). -/
def my_reverse (fuel : Nat) (m : Mem) (src length : Nat) : Option Mem :=
  reverse_loop src (length / 2) fuel m 0 length src

/-- Fuel handed to `my_reverse` by its callers: its counter takes at most 256
values, so a terminating run makes fewer than 256 iterations. -/
def REVERSE_FUEL : Nat := 257

/-! ## data.c -/

/-- Loop of `int_to_str`.  `data % base` and `data /= base` mix `int32_t` with
`uint32_t`, so both are computed on `toU32 data`. -/
def int_to_str : Nat → Mem → Int → Nat → Nat → Option (Mem × Nat)
  | 0, _, _, _, _ => none
  | fuel + 1, m, data, str, base =>
    if data ≠ 0 then
      let i := (toU32 data % base) % 256
      let data1 := wrapI32 (toU32 data / base : Nat)
      if i < 10 then
        int_to_str fuel (store m str ((48 + i) % 256)) data1 (str + 1) base
      else
        int_to_str fuel (store m str ((97 - 10 + i) % 256)) data1 (str + 1) base
    else some (m, str)

/-- Fuel for `int_to_str`: a 32-bit value has at most 32 digits in any base. -/
def ITOA_FUEL : Nat := 33

/-- The function `my_itoa`.  The local array `start_str` lives at address `sp`
of the memory `m`; the result is the final memory and the returned length. -/
def my_itoa (m : Mem) (sp : Nat) (data : Int) (ptr base : Nat) : Option (Mem × Nat) :=
  if (base < BASE_2 ∨ base > BASE_16) ∨ base = BASE_8 then some (m, EINVAL)
  else
    let negative : Nat := if data < 0 then 1 else 0
    let data1 : Int :=
      if negative ≠ 0 then
        let d := wrapI32 (data * -1)
        if base ≠ BASE_10 then wrapI32 ((4294967295 - toU32 d + 1 : Nat) % 4294967296 : Nat)
        else d
      else data
    match int_to_str ITOA_FUEL m data1 sp base with
    | none => none
    | some (m1, str) =>
      let len := (str - sp) % 256
      let (m2, str2, len2) :=
        if base = BASE_10 ∧ negative ≠ 0 then (store m1 str 45, str + 1, (len + 1) % 256)
        else (m1, str, len)
      match my_reverse REVERSE_FUEL m2 sp len2 with
      | none => none
      | some m3 =>
        let m4 := store m3 str2 0
        let m5 := (my_memcopy m4 sp ptr len2).1
        some (m5, (len2 + 1) % 256)

/-- Digit value assigned to `data` by one pass of the `my_atoi` loop for the
character `c`; `data` keeps its previous value when `c` is no digit. -/
def atoi_digit (c data : Nat) : Nat :=
  if 48 ≤ c ∧ c ≤ 57 then (c - 48) % 256
  else if (65 ≤ c ∧ c ≤ 70) ∨ (97 ≤ c ∧ c ≤ 102) then
    if c = 65 ∨ c = 97 then 10
    else if c = 66 ∨ c = 98 then 11
    else if c = 67 ∨ c = 99 then 12
    else if c = 68 ∨ c = 100 then 13
    else if c = 69 ∨ c = 101 then 14
    else if c = 70 ∨ c = 102 then 15
    else data
  else data

/-- Loop `while (digits--)` of `my_atoi`; the state is `(num, data, i)`.  The
sum `base * num + data` is unsigned 32-bit arithmetic; `1 << (4 * i)` is taken as
the 32-bit wrap of `2 ^ (4 * i)`, like every other `int` result of the loop. -/
def atoi_loop (m : Mem) (str base : Nat) : Nat → Int → Nat → Nat → Int
  | 0, num, _, _ => num
  | digits + 1, num, data, i =>
    let data1 := atoi_digit (m (str + digits)) data
    if base = BASE_10 ∨ base = BASE_2 then
      atoi_loop m str base digits (wrapI32 ((base * toU32 num + data1 : Nat) % 4294967296 : Nat))
        data1 i
    else
      atoi_loop m str base digits
        (wrapI32 (num + wrapI32 ((data1 : Int) * wrapI32 ((1 : Int) * 2 ^ (4 * i)))))
        data1 ((i + 1) % 256)

/-- The function `my_atoi`.  `data0` is the indeterminate initial content of the
local variable `data`; the result is the final memory and the returned number. -/
def my_atoi (m : Mem) (data0 : Nat) (str digits base : Nat) : Option (Mem × Int) :=
  if (base < BASE_2 ∨ base > BASE_16) ∨ base = BASE_8 then some (m, (EINVAL : Int))
  else
    let digits1 := (digits + 255) % 256
    let len := digits1
    let negative : Nat := if m str = 45 then 1 else 0
    let len1 := if m str = 45 then (len + 2 ^ SIZE_BITS - 1) % 2 ^ SIZE_BITS else len
    let str1 := if m str = 45 then str + 1 else str
    let rev : Option Mem :=
      if base = BASE_10 ∨ base = BASE_2 then my_reverse REVERSE_FUEL m str1 len1 else some m
    match rev with
    | none => none
    | some m1 =>
      let num := atoi_loop m1 str1 base digits1 0 data0 0
      if base = BASE_10 ∧ negative ≠ 0 then some (m1, wrapI32 (num * -1))
      else some (m1, num)

/-- Memory filled with the byte `c`. -/
def constMem (c : Nat) : Mem := fun _ => c

/-! ## stats.c -/

/-- Inner loop of `sort_array`, `for (j = i + 1; j < size; ++j)`, from the current
value of the `uint8_t` counter `j` on. -/
def sort_inner (array size i : Nat) : Nat → Mem → Nat → Option Mem
  | 0, _, _ => none
  | fuel + 1, m, j =>
    if j < size then
      if m (array + i) < m (array + j) then
        let tmp := m (array + i)
        let m1 := store m (array + i) (m (array + j))
        let m2 := store m1 (array + j) tmp
        sort_inner array size i fuel m2 ((j + 1) % 256)
      else sort_inner array size i fuel m ((j + 1) % 256)
    else some m

/-- Outer loop of `sort_array`, `for (i = 0; i < size; ++i)`, from the current value
of the `uint8_t` counter `i` on. -/
def sort_outer (array size : Nat) : Nat → Mem → Nat → Option Mem
  | 0, _, _ => none
  | fuel + 1, m, i =>
    if i < size then
      match sort_inner array size i fuel m ((i + 1) % 256) with
      | none => none
      | some m1 => sort_outer array size fuel m1 ((i + 1) % 256)
    else some m

/-- The function `sort_array`. -/
def sort_array (fuel : Nat) (m : Mem) (array size : Nat) : Option Mem :=
  sort_outer array size fuel m 0

/-- The function `find_maximum`: `array[0]`. -/
def find_maximum (m : Mem) (array _size : Nat) : Nat :=
  m (array + 0)

/-- The function `find_minimum`: `array[size-1]`, the index computed in `size_t`. -/
def find_minimum (m : Mem) (array size : Nat) : Nat :=
  m (array + (size + 2 ^ SIZE_BITS - 1) % 2 ^ SIZE_BITS)

/-- The function `find_median`: `(array[size/2-1] + array[size/2])/2`, the indices
computed in `size_t` (so `size/2-1` is `SIZE_MAX` for `size < 2`), the sum in `int`,
the result converted to `uint8_t`.  Addresses themselves are not wrapped. -/
def find_median (m : Mem) (array size : Nat) : Nat :=
  ((m (array + (size / 2 + 2 ^ SIZE_BITS - 1) % 2 ^ SIZE_BITS) + m (array + size / 2)) / 2) % 256

/-- Outcome of an arithmetic expression: a value, or a division by zero. -/
inductive Arith
  | val (v : Nat)
  | divByZero
  deriving DecidableEq

/-- Loop of `find_mean`, `while (i < size) { sum += array[i]; i++; }`, with the
`uint8_t` variables `i` and `sum`; the result is the final `sum`. -/
def mean_loop (m : Mem) (array size : Nat) : Nat → Nat → Nat → Option Nat
  | 0, _, _ => none
  | fuel + 1, i, sum =>
    if i < size then mean_loop m array size fuel ((i + 1) % 256) ((sum + m (array + i)) % 256)
    else some sum

/-- The function `find_mean`: the loop, then `sum/size` converted to `uint8_t`. -/
def find_mean (fuel : Nat) (m : Mem) (array size : Nat) : Option Arith :=
  match mean_loop m array size fuel 0 0 with
  | none => none
  | some sum => if size = 0 then some Arith.divByZero else some (Arith.val ((sum / size) % 256))

/-- A line printed by `print_statistics`. -/
inductive Line
  | rule
  | maximum (v : Nat)
  | minimum (v : Nat)
  | median (v : Nat)
  | meanError
  | mean (r : Arith)
  deriving DecidableEq

/-- The function `print_statistics`: the lines it prints. -/
def print_statistics (fuel : Nat) (m : Mem) (array size : Nat) : Option (List Line) :=
  let l1 := Line.maximum (find_maximum m array size)
  let l2 := Line.minimum (find_minimum m array size)
  let l3 := Line.median (find_median m array size)
  if size = 0 then some [Line.rule, l1, l2, l3, Line.meanError, Line.rule]
  else
    match find_mean fuel m array size with
    | none => none
    | some r => some [Line.rule, l1, l2, l3, Line.mean r, Line.rule]

/-! ## Specification-side definitions -/

/-- Memory after `j` swaps of the reversal of the `len` bytes at `src`. -/
def revPartial (m : Mem) (src len j : Nat) : Mem := fun a =>
  if src ≤ a ∧ a < src + len ∧ (a - src < j ∨ len - j ≤ a - src) then
    m (src + (len - 1 - (a - src)))
  else m a

/-- ASCII character of a digit value: `'0'..'9'`, then lowercase `'a'`, `'b'`, ... -/
def digitChar (d : Nat) : Nat := if d < 10 then 48 + d else 87 + d

/-- Value handed to `int_to_str` by `my_itoa`: the argument itself, its wrapped
negation (decimal) or its wrapped negation complemented again (other bases). -/
def itoa_data (data : Int) (base : Nat) : Int :=
  if data < 0 then
    if base ≠ BASE_10 then
      wrapI32 ((4294967295 - toU32 (wrapI32 (data * -1)) + 1 : Nat) % 4294967296 : Nat)
    else wrapI32 (data * -1)
  else data

/-- Magnitude converted by `my_itoa`: `|v|` in base 10, the 32-bit pattern of `v`
in the other bases. -/
def itoa_mag (v : Int) (b : Nat) : Nat := if b = 10 then v.natAbs else toU32 v

/-- Characters produced by `my_itoa`, most significant digit first. -/
def itoa_out (v : Int) (b : Nat) : List Nat :=
  (if b = 10 ∧ v < 0 then [45] else []) ++ (Nat.digits b (itoa_mag v b)).reverse.map digitChar

/-- A character that is a digit of base `b`: `'0'..'9'` below the base, and for
base 16 also `'A'..'F'` and `'a'..'f'`. -/
def isDigitChar (b c : Nat) : Prop :=
  (48 ≤ c ∧ c ≤ 57 ∧ c < 48 + b) ∨ (b = 16 ∧ ((65 ≤ c ∧ c ≤ 70) ∨ (97 ≤ c ∧ c ≤ 102)))

/-- Value of a digit character: `'0'..'9'` are 0..9, `'A'..'F'` and `'a'..'f'`
are 10..15. -/
def digitValue (c : Nat) : Nat :=
  if c ≤ 57 then c - 48 else if c ≤ 70 then c - 55 else c - 87

instance (b c : Nat) : Decidable (isDigitChar b c) := by
  unfold isDigitChar
  infer_instance

/-! ## Memory lemmas -/

theorem store_same (m : Mem) (a v : Nat) : store m a v a = v := by
  simp [store]

theorem store_other (m : Mem) (a v x : Nat) (h : x ≠ a) : store m a v x = m x := by
  simp [store, h]

theorem readBytes_length (m : Mem) (p n : Nat) : (readBytes m p n).length = n := by
  induction n generalizing p with
  | zero => rfl
  | succ n ih => simp [readBytes, ih]

theorem readBytes_getD (m : Mem) (p n i : Nat) (h : i < n) :
    (readBytes m p n).getD i 0 = m (p + i) := by
  induction n generalizing p i with
  | zero => omega
  | succ n ih =>
    cases i with
    | zero => simp [readBytes]
    | succ i =>
      simp only [readBytes, List.getD_cons_succ]
      rw [ih (p + 1) i (by omega)]
      congr 1
      omega

theorem readBytes_congr (m m1 : Mem) (p n : Nat) (h : ∀ i, i < n → m (p + i) = m1 (p + i)) :
    readBytes m p n = readBytes m1 p n := by
  induction n generalizing p with
  | zero => rfl
  | succ n ih =>
    simp only [readBytes]
    rw [ih (p + 1) (fun i hi => by
      have := h (i + 1) (by omega)
      rwa [show p + (i + 1) = p + 1 + i by omega] at this)]
    have h0 := h 0 (by omega)
    simp only [Nat.add_zero] at h0
    rw [h0]

theorem readBytes_succ_last (m : Mem) (p n : Nat) :
    readBytes m p (n + 1) = readBytes m p n ++ [m (p + n)] := by
  induction n generalizing p with
  | zero => simp [readBytes]
  | succ n ih =>
    rw [readBytes, ih (p + 1), readBytes]
    simp only [List.cons_append]
    rw [show p + 1 + n = p + (n + 1) by omega]

/-- Pointwise description of `writeList`. -/
theorem writeList_apply (m : Mem) (p : Nat) (l : List Nat) (a : Nat) :
    writeList m p l a = if p ≤ a ∧ a < p + l.length then l.getD (a - p) 0 else m a := by
  induction l generalizing m p with
  | nil =>
    simp only [writeList, List.length_nil, Nat.add_zero]
    rw [if_neg (by omega)]
  | cons x xs ih =>
    simp only [writeList, List.length_cons]
    rw [ih]
    by_cases h1 : p + 1 ≤ a ∧ a < p + 1 + xs.length
    · rw [if_pos h1, if_pos (by omega)]
      obtain ⟨k, hk⟩ : ∃ k, a - p = k + 1 := ⟨a - p - 1, by omega⟩
      rw [hk, List.getD_cons_succ]
      congr 1
      omega
    · rw [if_neg h1]
      by_cases h2 : a = p
      · subst h2
        rw [if_pos (by omega), store_same]
        simp
      · rw [if_neg (by omega), store_other _ _ _ _ h2]

theorem writeList_outside (m : Mem) (p : Nat) (l : List Nat) (a : Nat)
    (h : a < p ∨ p + l.length ≤ a) : writeList m p l a = m a := by
  rw [writeList_apply, if_neg (by omega)]

theorem writeList_inside (m : Mem) (p : Nat) (l : List Nat) (i : Nat) (h : i < l.length) :
    writeList m p l (p + i) = l.getD i 0 := by
  rw [writeList_apply, if_pos (by omega)]
  congr 1
  omega

theorem list_eq_of_getD (l1 l2 : List Nat) (hl : l1.length = l2.length)
    (h : ∀ i, i < l1.length → l1.getD i 0 = l2.getD i 0) : l1 = l2 := by
  apply List.ext_getElem hl
  intro i h1 h2
  have := h i h1
  rw [List.getD_eq_getElem _ _ h1, List.getD_eq_getElem _ _ h2] at this
  exact this

theorem readBytes_eq_of_getD (m : Mem) (p : Nat) (l : List Nat)
    (h : ∀ i, i < l.length → m (p + i) = l.getD i 0) : readBytes m p l.length = l := by
  apply list_eq_of_getD _ _ (readBytes_length _ _ _)
  intro i hi
  rw [readBytes_length] at hi
  rw [readBytes_getD _ _ _ _ hi, h i hi]

theorem readBytes_writeList (m : Mem) (p : Nat) (l : List Nat) :
    readBytes (writeList m p l) p l.length = l :=
  readBytes_eq_of_getD _ _ _ (fun i hi => writeList_inside m p l i hi)

theorem writeList_append (m : Mem) (p : Nat) (l1 l2 : List Nat) :
    writeList m p (l1 ++ l2) = writeList (writeList m p l1) (p + l1.length) l2 := by
  induction l1 generalizing m p with
  | nil => simp [writeList]
  | cons x xs ih =>
    show writeList (store m p x) (p + 1) (xs ++ l2) =
      writeList (writeList (store m p x) (p + 1) xs) (p + (xs.length + 1)) l2
    rw [ih, show p + 1 + xs.length = p + (xs.length + 1) by omega]

theorem writeList_snoc (m : Mem) (p : Nat) (l : List Nat) (v : Nat) :
    store (writeList m p l) (p + l.length) v = writeList m p (l ++ [v]) := by
  rw [writeList_append]
  rfl

/-! ## The copy loops -/

theorem memcopy_loop_eq (m : Mem) (src dst n : Nat) (h : dst ≤ src ∨ src + n ≤ dst) :
    memcopy_loop m src dst n = writeList m dst (readBytes m src n) := by
  induction n generalizing m src dst with
  | zero => rfl
  | succ n ih =>
    simp only [memcopy_loop, readBytes, writeList]
    rw [ih _ _ _ (by omega)]
    have hr : readBytes (store m dst (m src)) (src + 1) n = readBytes m (src + 1) n := by
      apply readBytes_congr
      intro i hi
      rw [store_other]
      omega
    rw [hr]

theorem memmove_fwd_eq (m : Mem) (src dst n : Nat) :
    memmove_fwd m src dst n = (memcopy_loop m src dst n, dst + n) := by
  induction n generalizing m src dst with
  | zero => rfl
  | succ n ih =>
    simp only [memmove_fwd, memcopy_loop]
    rw [ih]
    congr 1
    omega

theorem memmove_bwd_eq (m : Mem) (src dst n : Nat) (h : src ≤ dst) :
    memmove_bwd m (src + n) (dst + n) n = (writeList m dst (readBytes m src n), dst) := by
  induction n generalizing m with
  | zero => rfl
  | succ n ih =>
    simp only [memmove_bwd]
    rw [show src + (n + 1) - 1 = src + n by omega, show dst + (n + 1) - 1 = dst + n by omega,
      ih, readBytes_succ_last]
    congr 1
    have hr : readBytes (store m (dst + n) (m (src + n))) src n = readBytes m src n := by
      apply readBytes_congr
      intro i hi
      rw [store_other]
      omega
    rw [hr]
    funext a
    have hl := readBytes_length m src n
    rw [← writeList_snoc, hl]
    by_cases ha : a = dst + n
    · subst ha
      rw [store_same, writeList_outside _ _ _ _ (by omega), store_same]
    · rw [store_other _ _ _ _ ha]
      by_cases hin : dst ≤ a ∧ a < dst + n
      · rw [writeList_apply, writeList_apply, hl, if_pos hin, if_pos hin]
      · rw [writeList_outside _ _ _ _ (by omega), writeList_outside _ _ _ _ (by omega),
          store_other _ _ _ _ ha]

/-- Contents of memory after `my_memmove`, in every overlap configuration except
`src = dst`. -/
theorem my_memmove_mem (m : Mem) (src dst n : Nat) (h : src ≠ dst) :
    (my_memmove m src dst n).1 = writeList m dst (readBytes m src n) := by
  unfold my_memmove
  rw [if_neg h]
  by_cases hov : src < dst ∧ dst < src + n
  · rw [if_pos hov, memmove_bwd_eq _ _ _ _ (by omega)]
  · rw [if_neg hov, memmove_fwd_eq, memcopy_loop_eq _ _ _ _ (by omega)]

/-- C10: after `my_memmove(src, dst, length)`, whatever the overlap of the two
regions, every destination byte `dst[i]` holds the value `src[i]` had before the
call, every byte outside the destination region is unchanged, and with
`src == dst` the whole memory is unchanged. -/
theorem my_memmove_overlap_safe (m : Mem) (src dst length : Nat) :
    (∀ i, i < length → (my_memmove m src dst length).1 (dst + i) = m (src + i)) ∧
    (∀ a, a < dst ∨ dst + length ≤ a → (my_memmove m src dst length).1 a = m a) ∧
    (src = dst → (my_memmove m src dst length).1 = m) := by
  by_cases h : src = dst
  · subst h
    have he : (my_memmove m src src length).1 = m := by simp [my_memmove]
    rw [he]
    exact ⟨fun _ _ => rfl, fun _ _ => rfl, fun _ => rfl⟩
  · rw [my_memmove_mem _ _ _ _ h]
    refine ⟨fun i hi => ?_, fun a ha => ?_, fun h1 => absurd h1 h⟩
    · rw [writeList_inside _ _ _ _ (by rw [readBytes_length]; exact hi),
        readBytes_getD _ _ _ _ hi]
    · rw [writeList_outside _ _ _ _ (by rw [readBytes_length]; exact ha)]

/-! ## The reversal loop -/

theorem revPartial_zero (m : Mem) (src len : Nat) : revPartial m src len 0 = m := by
  funext a
  unfold revPartial
  by_cases h : src ≤ a ∧ a < src + len ∧ (a - src < 0 ∨ len - 0 ≤ a - src)
  · omega
  · rw [if_neg h]

theorem revPartial_step (m : Mem) (src len j : Nat) (hj : j < len / 2) :
    store (store (revPartial m src len j) (src + j) (revPartial m src len j (src + (len - j - 1))))
      (src + (len - j - 1)) (revPartial m src len j (src + j)) = revPartial m src len (j + 1) := by
  have h1 : revPartial m src len j (src + (len - j - 1)) = m (src + (len - j - 1)) := by
    unfold revPartial
    rw [if_neg (by omega)]
  have h2 : revPartial m src len j (src + j) = m (src + j) := by
    unfold revPartial
    rw [if_neg (by omega)]
  rw [h1, h2]
  funext a
  by_cases ha : a = src + (len - j - 1)
  · rw [ha, store_same]
    unfold revPartial
    rw [if_pos (by omega)]
    congr 1
    omega
  · rw [store_other _ _ _ _ ha]
    by_cases hb : a = src + j
    · rw [hb, store_same]
      unfold revPartial
      rw [if_pos (by omega)]
      congr 1
      omega
    · rw [store_other _ _ _ _ hb]
      unfold revPartial
      by_cases hc : src ≤ a ∧ a < src + len ∧ (a - src < j ∨ len - j ≤ a - src)
      · rw [if_pos hc, if_pos (by omega)]
      · rw [if_neg hc, if_neg (by omega)]

theorem reverse_loop_inv (m : Mem) (src len : Nat) (hlen : len ≤ 511) (k : Nat) :
    ∀ (j fuel : Nat), j + k = len / 2 → k < fuel →
      reverse_loop src (len / 2) fuel (revPartial m src len j) j (len - j) (src + j)
        = some (revPartial m src len (len / 2)) := by
  induction k with
  | zero =>
    intro j fuel hj hf
    obtain ⟨f, rfl⟩ : ∃ f, fuel = f + 1 := ⟨fuel - 1, by omega⟩
    have : j = len / 2 := by omega
    subst this
    simp [reverse_loop]
  | succ k ih =>
    intro j fuel hj hf
    obtain ⟨f, rfl⟩ : ∃ f, fuel = f + 1 := ⟨fuel - 1, by omega⟩
    have hlt : j < len / 2 := by omega
    have hl1 : (len - j + 2 ^ SIZE_BITS - 1) % 2 ^ SIZE_BITS = len - j - 1 := by
      have : len - j + 2 ^ SIZE_BITS - 1 = (len - j - 1) + 2 ^ SIZE_BITS := by
        have : 0 < 2 ^ SIZE_BITS := Nat.pow_pos (by decide)
        omega
      rw [this, Nat.add_mod_right]
      apply Nat.mod_eq_of_lt
      calc len - j - 1 < 512 := by omega
        _ ≤ 2 ^ SIZE_BITS := by decide
    have hi : (j + 1) % 256 = j + 1 := Nat.mod_eq_of_lt (by omega)
    simp only [reverse_loop, if_pos hlt, hl1, hi]
    rw [revPartial_step _ _ _ _ hlt]
    have := ih (j + 1) f (by omega) (by omega)
    rw [show len - (j + 1) = len - j - 1 by omega] at this
    exact this

theorem revPartial_full (m : Mem) (src len : Nat) :
    revPartial m src len (len / 2) = writeList m src (readBytes m src len).reverse := by
  funext a
  rw [writeList_apply, List.length_reverse, readBytes_length]
  unfold revPartial
  by_cases hin : src ≤ a ∧ a < src + len
  · rw [if_pos hin]
    have hget : (readBytes m src len).reverse.getD (a - src) 0 = m (src + (len - 1 - (a - src))) := by
      have hlt : a - src < (readBytes m src len).reverse.length := by
        rw [List.length_reverse, readBytes_length]; omega
      rw [List.getD_eq_getElem _ _ hlt, List.getElem_reverse]
      have h2 : (readBytes m src len).length - 1 - (a - src) < (readBytes m src len).length := by
        rw [readBytes_length]; omega
      rw [← List.getD_eq_getElem _ 0 h2, readBytes_length,
        readBytes_getD _ _ _ _ (by omega)]
    rw [hget]
    by_cases hmid : a - src < len / 2 ∨ len - len / 2 ≤ a - src
    · rw [if_pos ⟨hin.1, hin.2, hmid⟩]
    · rw [if_neg (by tauto)]
      congr 1
      omega
  · rw [if_neg hin, if_neg (by tauto)]

/-- On at most 511 bytes `my_reverse` terminates and reverses the region. -/
theorem my_reverse_eq (m : Mem) (src len fuel : Nat) (hlen : len ≤ 511) (hf : len / 2 < fuel) :
    my_reverse fuel m src len = some (writeList m src (readBytes m src len).reverse) := by
  unfold my_reverse
  have := reverse_loop_inv m src len hlen (len / 2) 0 fuel (by omega) hf
  rw [revPartial_zero, Nat.sub_zero, Nat.add_zero] at this
  rw [this, revPartial_full]

/-! ## Machine arithmetic -/

theorem wrapI32_of_range (x : Int) (h1 : -2147483648 ≤ x) (h2 : x < 2147483648) :
    wrapI32 x = x := by
  unfold wrapI32
  omega

theorem toU32_natCast (n : Nat) (h : n < 4294967296) : toU32 (n : Int) = n := by
  unfold toU32
  omega

theorem toU32_lt (x : Int) : toU32 x < 4294967296 := by
  unfold toU32
  omega

theorem toU32_eq_zero_iff (x : Int) (h1 : -2147483648 ≤ x) (h2 : x < 2147483648) :
    toU32 x = 0 ↔ x = 0 := by
  unfold toU32
  omega

theorem toU32_neg (x : Int) (h1 : -2147483648 ≤ x) (h2 : x < 0) :
    toU32 x = 4294967296 - x.natAbs := by
  unfold toU32
  omega

theorem toU32_nonneg (x : Int) (h1 : 0 ≤ x) (h2 : x < 2147483648) :
    toU32 x = x.natAbs := by
  unfold toU32
  omega

/-! ## Digit extraction -/

theorem int_to_str_eq (b : Nat) (hb2 : 2 ≤ b) (hb16 : b ≤ 16) (fuel : Nat) :
    ∀ (m : Mem) (data : Int) (str : Nat), -2147483648 ≤ data → data < 2147483648 →
      (Nat.digits b (toU32 data)).length < fuel →
      int_to_str fuel m data str b
        = some (writeList m str ((Nat.digits b (toU32 data)).map digitChar),
            str + (Nat.digits b (toU32 data)).length) := by
  induction fuel with
  | zero => intro m data str _ _ hf; omega
  | succ fuel ih =>
    intro m data str h1 h2 hf
    by_cases h0 : data = 0
    · subst h0
      simp [int_to_str, toU32, writeList]
    · have hn : 0 < toU32 data := by
        have := (toU32_eq_zero_iff data h1 h2).not.mpr h0
        omega
      have hlt := toU32_lt data
      have hdig := Nat.digits_def' (show 1 < b by omega) hn
      have hq : toU32 data / b < 2147483648 := by
        have : toU32 data / b ≤ toU32 data / 2 := Nat.div_le_div_left hb2 (by decide)
        omega
      have hw : wrapI32 ((toU32 data / b : Nat) : Int) = ((toU32 data / b : Nat) : Int) := by
        generalize toU32 data / b = q at hq
        exact wrapI32_of_range _ (by omega) (by omega)
      have hu : toU32 ((toU32 data / b : Nat) : Int) = toU32 data / b :=
        toU32_natCast _ (by omega)
      have hq1 : (-2147483648 : Int) ≤ ((toU32 data / b : Nat) : Int) := by
        generalize toU32 data / b = q at hq
        omega
      have hq2 : ((toU32 data / b : Nat) : Int) < 2147483648 := by
        generalize toU32 data / b = q at hq
        omega
      have hr : toU32 data % b < b := Nat.mod_lt _ (by omega)
      have hi : toU32 data % b % 256 = toU32 data % b := Nat.mod_eq_of_lt (by omega)
      rw [hdig] at hf ⊢
      simp only [List.length_cons] at hf
      have hrec := ih (store m str (digitChar (toU32 data % b))) ((toU32 data / b : Nat) : Int)
        (str + 1) hq1 hq2 (by rw [hu]; omega)
      rw [hu, show str + 1 + (Nat.digits b (toU32 data / b)).length
        = str + ((Nat.digits b (toU32 data / b)).length + 1) by omega] at hrec
      simp only [int_to_str, if_pos h0, ne_eq, not_false_eq_true, hi, hw, List.map_cons,
        List.length_cons, writeList]
      by_cases h10 : toU32 data % b < 10
      · have hc : (48 + toU32 data % b) % 256 = digitChar (toU32 data % b) := by
          unfold digitChar; rw [if_pos h10]; omega
        rw [if_pos h10, hc, hrec]
      · have hc : (97 - 10 + toU32 data % b) % 256 = digitChar (toU32 data % b) := by
          unfold digitChar; rw [if_neg h10]; omega
        rw [if_neg h10, hc, hrec]

/-- A value below `b ^ k` has at most `k` digits in base `b`. -/
theorem digits_length_le_of_lt_pow (b n k : Nat) (hb2 : 2 ≤ b) (hn : n < b ^ k) :
    (Nat.digits b n).length ≤ k := by
  by_cases h0 : n = 0
  · subst h0
    simp
  · by_contra hc
    have h1 : b ^ (k + 1) ≤ b ^ (Nat.digits b n).length :=
      Nat.pow_le_pow_right (by omega) (by omega)
    have h2 := Nat.base_pow_length_digits_le b n (by omega) h0
    have h3 : b * n < b * b ^ k := Nat.mul_lt_mul_of_pos_left hn (by omega)
    have h4 : b * b ^ k = b ^ (k + 1) := by ring
    omega

/-- A 32-bit value has at most 32 digits in any base from 2 on. -/
theorem digits_length_le (b n : Nat) (hb2 : 2 ≤ b) (hn : n < 4294967296) :
    (Nat.digits b n).length ≤ 32 :=
  digits_length_le_of_lt_pow b n 32 hb2
    (calc n < 2 ^ 32 := hn
      _ ≤ b ^ 32 := Nat.pow_le_pow_left hb2 32)

/-! ## `my_itoa` -/

theorem itoa_data_range (v : Int) (b : Nat) (h1 : -2147483648 ≤ v) (h2 : v < 2147483648) :
    -2147483648 ≤ itoa_data v b ∧ itoa_data v b < 2147483648 := by
  unfold itoa_data wrapI32
  split_ifs <;> omega

theorem itoa_data_toU32 (v : Int) (b : Nat) (h1 : -2147483648 ≤ v) (h2 : v < 2147483648) :
    toU32 (itoa_data v b) = if b = 10 then v.natAbs else toU32 v := by
  unfold itoa_data wrapI32 toU32 BASE_10
  split_ifs <;> omega


theorem my_itoa_unfold (m : Mem) (sp : Nat) (v : Int) (ptr b : Nat)
    (hb : ¬ ((b < BASE_2 ∨ b > BASE_16) ∨ b = BASE_8)) (m1 : Mem) (str : Nat)
    (h1 : int_to_str ITOA_FUEL m (itoa_data v b) sp b = some (m1, str))
    (m2 : Mem) (str2 len2 : Nat)
    (h2 : (if b = BASE_10 ∧ v < 0 then (store m1 str 45, str + 1, ((str - sp) % 256 + 1) % 256)
        else (m1, str, (str - sp) % 256)) = (m2, str2, len2))
    (m3 : Mem) (h3 : my_reverse REVERSE_FUEL m2 sp len2 = some m3) :
    my_itoa m sp v ptr b
      = some ((my_memcopy (store m3 str2 0) sp ptr len2).1, (len2 + 1) % 256) := by
  unfold my_itoa
  rw [if_neg hb]
  have hd : (if v < 0 then
        if b ≠ BASE_10 then
          wrapI32 ((4294967295 - toU32 (wrapI32 (v * -1)) + 1 : Nat) % 4294967296 : Nat)
        else wrapI32 (v * -1)
      else v) = itoa_data v b := rfl
  have hn : ((if v < 0 then 1 else 0 : Nat) ≠ 0) ↔ v < 0 := by
    by_cases hv : v < 0 <;> simp [hv]
  simp only [hn, hd, h1, h2, h3]

/-- Effect of `my_memcopy` on non-overlapping regions. -/
theorem my_memcopy_frame (m : Mem) (src dst length : Nat)
    (h : src + length ≤ dst ∨ dst + length ≤ src) :
    (∀ i, i < length → (my_memcopy m src dst length).1 (dst + i) = m (src + i)) ∧
    (∀ a, a < dst ∨ dst + length ≤ a → (my_memcopy m src dst length).1 a = m a) ∧
    (∀ i, i < length → (my_memcopy m src dst length).1 (src + i) = m (src + i)) ∧
    (my_memcopy m src dst length).2 = dst := by
  have he : (my_memcopy m src dst length).1 = writeList m dst (readBytes m src length) := by
    unfold my_memcopy
    rw [memcopy_loop_eq _ _ _ _ (by omega)]
  rw [he]
  refine ⟨fun i hi => ?_, fun a ha => ?_, fun i hi => ?_, rfl⟩
  · rw [writeList_inside _ _ _ _ (by rw [readBytes_length]; exact hi),
      readBytes_getD _ _ _ _ hi]
  · rw [writeList_outside _ _ _ _ (by rw [readBytes_length]; exact ha)]
  · rw [writeList_outside _ _ _ _ (by rw [readBytes_length]; omega)]

/-- Last steps of `my_itoa` once the characters `t` (least significant first,
sign last) lie in the scratch array: reversal, terminator, copy to `ptr`. -/
theorem itoa_tail (m : Mem) (sp ptr : Nat) (t : List Nat) (ht : t.length ≤ 32)
    (hdisj : ptr + 34 ≤ sp ∨ sp + 33 ≤ ptr) :
    my_reverse REVERSE_FUEL (writeList m sp t) sp t.length
        = some (writeList (writeList m sp t) sp t.reverse) ∧
    readBytes (my_memcopy (store (writeList (writeList m sp t) sp t.reverse) (sp + t.length) 0)
        sp ptr t.length).1 ptr t.length = t.reverse ∧
    ∀ a, (a < ptr ∨ ptr + t.length ≤ a) → (a < sp ∨ sp + 33 ≤ a) →
      (my_memcopy (store (writeList (writeList m sp t) sp t.reverse) (sp + t.length) 0)
        sp ptr t.length).1 a = m a := by
  have hrev := my_reverse_eq (writeList m sp t) sp t.length REVERSE_FUEL (by omega)
    (by unfold REVERSE_FUEL; omega)
  rw [readBytes_writeList] at hrev
  have hsrc : readBytes (store (writeList (writeList m sp t) sp t.reverse) (sp + t.length) 0)
      sp t.length = t.reverse := by
    have h1 : readBytes (store (writeList (writeList m sp t) sp t.reverse) (sp + t.length) 0)
        sp t.length = readBytes (writeList (writeList m sp t) sp t.reverse) sp t.length := by
      apply readBytes_congr
      intro i hi
      rw [store_other]
      omega
    have h2 := readBytes_writeList (writeList m sp t) sp t.reverse
    rw [List.length_reverse] at h2
    rw [h1, h2]
  have hcopy : (my_memcopy (store (writeList (writeList m sp t) sp t.reverse) (sp + t.length) 0)
      sp ptr t.length).1
      = writeList (store (writeList (writeList m sp t) sp t.reverse) (sp + t.length) 0) ptr
          t.reverse := by
    unfold my_memcopy
    rw [memcopy_loop_eq _ _ _ _ (by omega), hsrc]
  refine ⟨hrev, ?_, ?_⟩
  · rw [hcopy]
    have := readBytes_writeList
      (store (writeList (writeList m sp t) sp t.reverse) (sp + t.length) 0) ptr t.reverse
    rwa [List.length_reverse] at this
  · intro a ha hs
    rw [hcopy, writeList_outside _ _ _ _ (by rw [List.length_reverse]; exact ha),
      store_other _ _ _ _ (by omega),
      writeList_outside _ _ _ _ (by rw [List.length_reverse]; omega),
      writeList_outside _ _ _ _ (by omega)]

theorem itoa_mag_lt (v : Int) (b : Nat) (h1 : -2147483648 ≤ v) (h2 : v < 2147483648) :
    itoa_mag v b < 4294967296 := by
  unfold itoa_mag toU32
  split_ifs <;> omega

/-- Full description of a successful `my_itoa` call on a 32-bit value. -/
theorem my_itoa_spec (m : Mem) (sp : Nat) (v : Int) (ptr b : Nat)
    (hb : b = 2 ∨ b = 10 ∨ b = 16) (h1 : -2147483648 ≤ v) (h2 : v < 2147483648)
    (hdisj : ptr + 34 ≤ sp ∨ sp + 33 ≤ ptr) :
    ∃ m1, my_itoa m sp v ptr b = some (m1, (itoa_out v b).length + 1) ∧
      readBytes m1 ptr (itoa_out v b).length = itoa_out v b ∧
      (∀ a, (a < ptr ∨ ptr + (itoa_out v b).length ≤ a) → (a < sp ∨ sp + 33 ≤ a) →
        m1 a = m a) ∧
      (itoa_out v b).length ≤ 32 := by
  have hb2 : 2 ≤ b := by omega
  have hb16 : b ≤ 16 := by omega
  have hbase : ¬ ((b < BASE_2 ∨ b > BASE_16) ∨ b = BASE_8) := by
    unfold BASE_2 BASE_16 BASE_8; omega
  have hmag := itoa_mag_lt v b h1 h2
  have hlen := digits_length_le b (itoa_mag v b) hb2 hmag
  have hrange := itoa_data_range v b h1 h2
  have hu : toU32 (itoa_data v b) = itoa_mag v b := itoa_data_toU32 v b h1 h2
  have hstr := int_to_str_eq b hb2 hb16 ITOA_FUEL m (itoa_data v b) sp hrange.1 hrange.2
    (by rw [hu]; unfold ITOA_FUEL; omega)
  rw [hu] at hstr
  have hlen10 : b = 10 → (Nat.digits b (itoa_mag v b)).length ≤ 10 := by
    intro h10
    apply digits_length_le_of_lt_pow b _ 10 hb2
    subst h10
    unfold itoa_mag
    rw [if_pos rfl]
    have : (10 : Nat) ^ 10 = 10000000000 := by norm_num
    omega
  by_cases hs : b = 10 ∧ v < 0
  · -- a sign character is appended
    have ht : ((Nat.digits b (itoa_mag v b)).map digitChar ++ [45]).length
        = (Nat.digits b (itoa_mag v b)).length + 1 := by simp
    have htl : ((Nat.digits b (itoa_mag v b)).map digitChar ++ [45]).length ≤ 32 := by
      have := hlen10 hs.1; omega
    obtain ⟨hrev, hread, hframe⟩ := itoa_tail m sp ptr
      ((Nat.digits b (itoa_mag v b)).map digitChar ++ [45]) htl hdisj
    have hout : itoa_out v b
        = ((Nat.digits b (itoa_mag v b)).map digitChar ++ [45]).reverse := by
      unfold itoa_out
      rw [if_pos hs]
      simp [List.map_reverse]
    have hun := my_itoa_unfold m sp v ptr b hbase _ _ hstr
      (writeList m sp ((Nat.digits b (itoa_mag v b)).map digitChar ++ [45]))
      (sp + ((Nat.digits b (itoa_mag v b)).map digitChar ++ [45]).length)
      (((Nat.digits b (itoa_mag v b)).map digitChar ++ [45]).length)
      (by
        rw [if_pos (by unfold BASE_10; exact hs), ← writeList_snoc, List.length_map, ht]
        have e1 : (sp + (Nat.digits b (itoa_mag v b)).length - sp) % 256
            = (Nat.digits b (itoa_mag v b)).length := by
          rw [Nat.add_sub_cancel_left]; exact Nat.mod_eq_of_lt (by omega)
        have e2 : ((Nat.digits b (itoa_mag v b)).length + 1) % 256
            = (Nat.digits b (itoa_mag v b)).length + 1 := Nat.mod_eq_of_lt (by omega)
        rw [e1, e2]
        rfl)
      _ hrev
    rw [Nat.mod_eq_of_lt (by omega)] at hun
    rw [hout, List.length_reverse]
    exact ⟨_, hun, hread, hframe, htl⟩
  · -- no sign character
    have htl : ((Nat.digits b (itoa_mag v b)).map digitChar).length ≤ 32 := by
      rw [List.length_map]; exact hlen
    obtain ⟨hrev, hread, hframe⟩ := itoa_tail m sp ptr
      ((Nat.digits b (itoa_mag v b)).map digitChar) htl hdisj
    have hout : itoa_out v b = ((Nat.digits b (itoa_mag v b)).map digitChar).reverse := by
      unfold itoa_out
      rw [if_neg hs]
      simp [List.map_reverse]
    have hun := my_itoa_unfold m sp v ptr b hbase _ _ hstr
      (writeList m sp ((Nat.digits b (itoa_mag v b)).map digitChar))
      (sp + ((Nat.digits b (itoa_mag v b)).map digitChar).length)
      (((Nat.digits b (itoa_mag v b)).map digitChar).length)
      (by
        rw [if_neg (by unfold BASE_10; exact hs), List.length_map]
        have e1 : (sp + (Nat.digits b (itoa_mag v b)).length - sp) % 256
            = (Nat.digits b (itoa_mag v b)).length := by
          rw [Nat.add_sub_cancel_left]; exact Nat.mod_eq_of_lt (by omega)
        rw [e1])
      _ hrev
    rw [Nat.mod_eq_of_lt (by omega)] at hun
    rw [hout, List.length_reverse]
    exact ⟨_, hun, hread, hframe, htl⟩

/-- The memory left by `my_itoa`, written out: `t` is the content of the scratch
array before the reversal (digits least significant first, then the sign). -/
theorem my_itoa_explicit (m : Mem) (sp : Nat) (v : Int) (ptr b : Nat)
    (hb : b = 2 ∨ b = 10 ∨ b = 16) (h1 : -2147483648 ≤ v) (h2 : v < 2147483648)
    (hdisj : ptr + 34 ≤ sp ∨ sp + 33 ≤ ptr) :
    ∃ t : List Nat, t.length ≤ 32 ∧ t.reverse = itoa_out v b ∧
      my_itoa m sp v ptr b
        = some ((my_memcopy (store (writeList (writeList m sp t) sp t.reverse) (sp + t.length) 0)
            sp ptr t.length).1, t.length + 1) := by
  have hb2 : 2 ≤ b := by omega
  have hb16 : b ≤ 16 := by omega
  have hbase : ¬ ((b < BASE_2 ∨ b > BASE_16) ∨ b = BASE_8) := by
    unfold BASE_2 BASE_16 BASE_8; omega
  have hmag := itoa_mag_lt v b h1 h2
  have hlen := digits_length_le b (itoa_mag v b) hb2 hmag
  have hrange := itoa_data_range v b h1 h2
  have hu : toU32 (itoa_data v b) = itoa_mag v b := itoa_data_toU32 v b h1 h2
  have hstr := int_to_str_eq b hb2 hb16 ITOA_FUEL m (itoa_data v b) sp hrange.1 hrange.2
    (by rw [hu]; unfold ITOA_FUEL; omega)
  rw [hu] at hstr
  have hlen10 : b = 10 → (Nat.digits b (itoa_mag v b)).length ≤ 10 := by
    intro h10
    apply digits_length_le_of_lt_pow b _ 10 hb2
    subst h10
    unfold itoa_mag
    rw [if_pos rfl]
    have : (10 : Nat) ^ 10 = 10000000000 := by norm_num
    omega
  by_cases hs : b = 10 ∧ v < 0
  · -- a sign character is appended
    have ht : ((Nat.digits b (itoa_mag v b)).map digitChar ++ [45]).length
        = (Nat.digits b (itoa_mag v b)).length + 1 := by simp
    have htl : ((Nat.digits b (itoa_mag v b)).map digitChar ++ [45]).length ≤ 32 := by
      have := hlen10 hs.1; omega
    obtain ⟨hrev, -, -⟩ := itoa_tail m sp ptr
      ((Nat.digits b (itoa_mag v b)).map digitChar ++ [45]) htl hdisj
    have hout : itoa_out v b
        = ((Nat.digits b (itoa_mag v b)).map digitChar ++ [45]).reverse := by
      unfold itoa_out
      rw [if_pos hs]
      simp [List.map_reverse]
    have hun := my_itoa_unfold m sp v ptr b hbase _ _ hstr
      (writeList m sp ((Nat.digits b (itoa_mag v b)).map digitChar ++ [45]))
      (sp + ((Nat.digits b (itoa_mag v b)).map digitChar ++ [45]).length)
      (((Nat.digits b (itoa_mag v b)).map digitChar ++ [45]).length)
      (by
        rw [if_pos (by unfold BASE_10; exact hs), ← writeList_snoc, List.length_map, ht]
        have e1 : (sp + (Nat.digits b (itoa_mag v b)).length - sp) % 256
            = (Nat.digits b (itoa_mag v b)).length := by
          rw [Nat.add_sub_cancel_left]; exact Nat.mod_eq_of_lt (by omega)
        have e2 : ((Nat.digits b (itoa_mag v b)).length + 1) % 256
            = (Nat.digits b (itoa_mag v b)).length + 1 := Nat.mod_eq_of_lt (by omega)
        rw [e1, e2]
        rfl)
      _ hrev
    rw [Nat.mod_eq_of_lt (by omega)] at hun
    exact ⟨_, htl, hout.symm, hun⟩
  · -- no sign character
    have htl : ((Nat.digits b (itoa_mag v b)).map digitChar).length ≤ 32 := by
      rw [List.length_map]; exact hlen
    obtain ⟨hrev, -, -⟩ := itoa_tail m sp ptr
      ((Nat.digits b (itoa_mag v b)).map digitChar) htl hdisj
    have hout : itoa_out v b = ((Nat.digits b (itoa_mag v b)).map digitChar).reverse := by
      unfold itoa_out
      rw [if_neg hs]
      simp [List.map_reverse]
    have hun := my_itoa_unfold m sp v ptr b hbase _ _ hstr
      (writeList m sp ((Nat.digits b (itoa_mag v b)).map digitChar))
      (sp + ((Nat.digits b (itoa_mag v b)).map digitChar).length)
      (((Nat.digits b (itoa_mag v b)).map digitChar).length)
      (by
        rw [if_neg (by unfold BASE_10; exact hs), List.length_map]
        have e1 : (sp + (Nat.digits b (itoa_mag v b)).length - sp) % 256
            = (Nat.digits b (itoa_mag v b)).length := by
          rw [Nat.add_sub_cancel_left]; exact Nat.mod_eq_of_lt (by omega)
        rw [e1])
      _ hrev
    rw [Nat.mod_eq_of_lt (by omega)] at hun
    exact ⟨_, htl, hout.symm, hun⟩

/-- After the copy the scratch array still holds the reversed characters and the
terminator right behind them. -/
theorem itoa_tail_scratch (m : Mem) (sp ptr : Nat) (t : List Nat) (ht : t.length ≤ 32)
    (hdisj : ptr + 34 ≤ sp ∨ sp + 33 ≤ ptr) :
    readBytes (my_memcopy (store (writeList (writeList m sp t) sp t.reverse) (sp + t.length) 0)
        sp ptr t.length).1 sp t.length = t.reverse ∧
    (my_memcopy (store (writeList (writeList m sp t) sp t.reverse) (sp + t.length) 0)
        sp ptr t.length).1 (sp + t.length) = 0 := by
  obtain ⟨-, hout, -, -⟩ := my_memcopy_frame
    (store (writeList (writeList m sp t) sp t.reverse) (sp + t.length) 0) sp ptr t.length
    (by omega)
  constructor
  · have h1 : readBytes (my_memcopy
        (store (writeList (writeList m sp t) sp t.reverse) (sp + t.length) 0)
        sp ptr t.length).1 sp t.length
        = readBytes (writeList (writeList m sp t) sp t.reverse) sp t.length := by
      apply readBytes_congr
      intro i hi
      rw [hout _ (by omega), store_other _ _ _ _ (by omega)]
    have h2 := readBytes_writeList (writeList m sp t) sp t.reverse
    rw [List.length_reverse] at h2
    rw [h1, h2]
  · rw [hout _ (by omega), store_same]

/-- C2: `my_itoa` accepts base 3: `my_itoa(5, ptr, 3)` does not return `EINVAL`
(22) but writes the characters `"12"` to `ptr` and returns 3. -/
theorem my_itoa_base3_accepted :
    (my_itoa (constMem 0) 1000 5 0 3).map (fun r => (readBytes r.1 0 2, r.2))
      = some ([49, 50], 3) ∧ EINVAL = 22 := by
  decide

/-- C3: for every value, `my_itoa(v, ptr, 8)` returns `EINVAL` and leaves the
whole memory, the output buffer included, unchanged. -/
theorem my_itoa_base8_invalid (m : Mem) (sp : Nat) (v : Int) (ptr : Nat) :
    my_itoa m sp v ptr 8 = some (m, EINVAL) := by
  simp [my_itoa, BASE_8]

/-- C4: the terminator never reaches the output: on a buffer filled with `0xAA`,
`my_itoa(255, ptr, 16)` returns 3 and leaves `ptr[0..2] = 'f','f',0xAA`, and
`my_itoa(-123, ptr, 10)` returns 5 and leaves `ptr[0..4] = '-','1','2','3',0xAA`. -/
theorem my_itoa_terminator_not_copied :
    (my_itoa (constMem 170) 1000 255 0 16).map (fun r => (readBytes r.1 0 3, r.2))
      = some ([102, 102, 170], 3) ∧
    (my_itoa (constMem 170) 1000 (-123) 0 10).map (fun r => (readBytes r.1 0 5, r.2))
      = some ([45, 49, 50, 51, 170], 5) := by
  decide

/-- C5: for a non-zero 32-bit `v`, `my_itoa(v, ptr, 10)` writes to `ptr` a `'-'`
exactly when `v < 0`, followed by the decimal digits of `|v|`, most significant
first and without a leading zero, and returns the number of digits plus one,
plus one more when `v < 0`. -/
theorem my_itoa_decimal (m : Mem) (sp : Nat) (v : Int) (ptr : Nat)
    (h1 : -2147483648 ≤ v) (h2 : v < 2147483648) (h0 : v ≠ 0)
    (hdisj : ptr + 34 ≤ sp ∨ sp + 33 ≤ ptr) :
    ∃ m1, my_itoa m sp v ptr 10
        = some (m1, (Nat.digits 10 v.natAbs).length + 1 + (if v < 0 then 1 else 0)) ∧
      readBytes m1 ptr ((if v < 0 then 1 else 0) + (Nat.digits 10 v.natAbs).length)
        = (if v < 0 then [45] else []) ++ (Nat.digits 10 v.natAbs).reverse.map (fun d => 48 + d) ∧
      (Nat.digits 10 v.natAbs).reverse.head? ≠ some 0 ∧
      0 < (Nat.digits 10 v.natAbs).length := by
  obtain ⟨m1, hret, hread, -, -⟩ := my_itoa_spec m sp v ptr 10 (by decide) h1 h2 hdisj
  have hmap : (Nat.digits 10 v.natAbs).reverse.map digitChar
      = (Nat.digits 10 v.natAbs).reverse.map (fun d => 48 + d) := by
    apply List.map_congr_left
    intro d hd
    have : d < 10 := Nat.digits_lt_base (by decide) (List.mem_reverse.mp hd)
    unfold digitChar
    rw [if_pos this]
  have hout : itoa_out v 10
      = (if v < 0 then [45] else []) ++ (Nat.digits 10 v.natAbs).reverse.map (fun d => 48 + d) := by
    unfold itoa_out itoa_mag
    rw [if_pos rfl, hmap]
    by_cases hv : v < 0 <;> simp [hv]
  have hlen : (itoa_out v 10).length
      = (if v < 0 then 1 else 0) + (Nat.digits 10 v.natAbs).length := by
    rw [hout]
    by_cases hv : v < 0
    · simp [hv]; omega
    · simp [hv]
  have hne : v.natAbs ≠ 0 := by omega
  refine ⟨m1, ?_, ?_, ?_, ?_⟩
  · rw [hret, hlen]
    congr 2
    omega
  · rw [← hlen, hread, hout]
  · have hnil : Nat.digits 10 v.natAbs ≠ [] := Nat.digits_ne_nil_iff_ne_zero.mpr hne
    have hlast := Nat.getLast_digit_ne_zero 10 hne
    rw [List.head?_reverse, List.getLast?_eq_getLast _ hnil]
    intro h
    exact hlast (Option.some.inj h)
  · exact List.length_pos.mpr (Nat.digits_ne_nil_iff_ne_zero.mpr hne)

/-- Witness of C5: `my_itoa(-123, ptr, 10)` writes `"-123"` and returns 5. -/
theorem my_itoa_decimal_witness :
    ∃ m1, my_itoa (constMem 0) 1000 (-123) 0 10 = some (m1, 5) ∧
      readBytes m1 0 4 = [45, 49, 50, 51] := by
  obtain ⟨m1, h1, h2, -, -⟩ := my_itoa_decimal (constMem 0) 1000 (-123) 0
    (by decide) (by decide) (by decide) (by decide)
  have hd : Nat.digits 10 (Int.natAbs (-123)) = [3, 2, 1] := by norm_num
  rw [hd] at h1 h2
  exact ⟨m1, h1, h2⟩

/-- C6: for a non-zero 32-bit `v` and base 2 or 16, `my_itoa` writes the base-`b`
numeral of the unsigned value `v mod 2^32` (which is `2^32 - |v|` for negative
`v`), most significant digit first, without a leading zero, digit values from 10
on as lowercase letters and no `'-'`, and returns the digit count plus one. -/
theorem my_itoa_nondecimal (m : Mem) (sp : Nat) (v : Int) (ptr b : Nat)
    (hb : b = 2 ∨ b = 16) (h1 : -2147483648 ≤ v) (h2 : v < 2147483648) (h0 : v ≠ 0)
    (hdisj : ptr + 34 ≤ sp ∨ sp + 33 ≤ ptr) :
    ∃ m1, my_itoa m sp v ptr b = some (m1, (Nat.digits b (toU32 v)).length + 1) ∧
      readBytes m1 ptr (Nat.digits b (toU32 v)).length
        = (Nat.digits b (toU32 v)).reverse.map digitChar ∧
      (Nat.digits b (toU32 v)).reverse.head? ≠ some 0 ∧
      0 < (Nat.digits b (toU32 v)).length ∧
      (toU32 v : Int) = v % 4294967296 ∧
      (v < 0 → toU32 v = 4294967296 - v.natAbs) := by
  obtain ⟨m1, hret, hread, -, -⟩ := my_itoa_spec m sp v ptr b (by omega) h1 h2 hdisj
  have hb10 : ¬ b = 10 := by omega
  have hout : itoa_out v b = (Nat.digits b (toU32 v)).reverse.map digitChar := by
    unfold itoa_out itoa_mag
    rw [if_neg hb10, if_neg (fun h => hb10 h.1)]
    simp
  have hlen : (itoa_out v b).length = (Nat.digits b (toU32 v)).length := by
    rw [hout]; simp
  have hne : toU32 v ≠ 0 := (toU32_eq_zero_iff v h1 h2).not.mpr h0
  refine ⟨m1, ?_, ?_, ?_, ?_, ?_, ?_⟩
  · rw [hret, hlen]
  · rw [← hlen, hread, hout]
  · have hnil : Nat.digits b (toU32 v) ≠ [] := Nat.digits_ne_nil_iff_ne_zero.mpr hne
    have hlast := Nat.getLast_digit_ne_zero b hne
    rw [List.head?_reverse, List.getLast?_eq_getLast _ hnil]
    intro h
    exact hlast (Option.some.inj h)
  · exact List.length_pos.mpr (Nat.digits_ne_nil_iff_ne_zero.mpr hne)
  · unfold toU32; omega
  · intro hv; exact toU32_neg v h1 hv

/-- Witness of C6: `my_itoa(-1, ptr, 16)` writes `"ffffffff"` and returns 9. -/
theorem my_itoa_nondecimal_witness :
    ∃ m1, my_itoa (constMem 0) 1000 (-1) 0 16 = some (m1, 9) ∧
      readBytes m1 0 8 = [102, 102, 102, 102, 102, 102, 102, 102] := by
  obtain ⟨m1, h1, h2, -, -⟩ := my_itoa_nondecimal (constMem 0) 1000 (-1) 0 16
    (by decide) (by decide) (by decide) (by decide) (by decide)
  have hu : toU32 (-1) = 4294967295 := by decide
  have hd : Nat.digits 16 4294967295 = [15, 15, 15, 15, 15, 15, 15, 15] := by norm_num
  rw [hu, hd] at h1 h2
  exact ⟨m1, h1, h2⟩

/-- C7: for the value zero `my_itoa` produces no digit: in bases 2, 10 and 16 it
returns 1 and leaves the output buffer (here filled with `0xAA`) untouched. -/
theorem my_itoa_zero_no_digit :
    (my_itoa (constMem 170) 1000 0 0 2).map (fun r => (readBytes r.1 0 2, r.2))
      = some ([170, 170], 1) ∧
    (my_itoa (constMem 170) 1000 0 0 10).map (fun r => (readBytes r.1 0 2, r.2))
      = some ([170, 170], 1) ∧
    (my_itoa (constMem 170) 1000 0 0 16).map (fun r => (readBytes r.1 0 2, r.2))
      = some ([170, 170], 1) := by
  decide

/-! ## `my_atoi` -/

theorem atoi_digit_eq (b c data : Nat) (hb : b ≤ 16) (h : isDigitChar b c) :
    atoi_digit c data = digitValue c ∧ digitValue c < b := by
  unfold isDigitChar at h
  unfold atoi_digit digitValue
  rcases h with ⟨h1, h2, h3⟩ | ⟨h16, h⟩
  · rw [if_pos ⟨h1, h2⟩, if_pos h2]
    omega
  · have hc : c = 65 ∨ c = 66 ∨ c = 67 ∨ c = 68 ∨ c = 69 ∨ c = 70 ∨
        c = 97 ∨ c = 98 ∨ c = 99 ∨ c = 100 ∨ c = 101 ∨ c = 102 := by omega
    subst h16
    rcases hc with h | h | h | h | h | h | h | h | h | h | h | h <;> subst h <;> simp

/-- The accumulation `num = base * num + data` of `my_atoi` (bases 2 and 10) over
`k` digit characters, read from index `k - 1` down to `0`. -/
theorem atoi_loop_radix (m : Mem) (str b : Nat) (hb : b = 10 ∨ b = 2) (k : Nat) :
    ∀ (n data i : Nat), (∀ c ∈ readBytes m str k, isDigitChar b c) →
      n * b ^ k + Nat.ofDigits b ((readBytes m str k).map digitValue) < 2147483648 →
      atoi_loop m str b k (n : Int) data i
        = ((n * b ^ k + Nat.ofDigits b ((readBytes m str k).map digitValue) : Nat) : Int) := by
  have hbb : b = BASE_10 ∨ b = BASE_2 := hb
  have hbpos : 0 < b := by omega
  induction k with
  | zero =>
    intro n data i _ _
    simp [atoi_loop, readBytes]
  | succ k ih =>
    intro n data i hdig hlt
    rw [readBytes_succ_last] at hdig hlt ⊢
    have hc := atoi_digit_eq b (m (str + k)) data (by omega)
      (hdig _ (by simp))
    have hval : Nat.ofDigits b ((readBytes m str k ++ [m (str + k)]).map digitValue)
        = Nat.ofDigits b ((readBytes m str k).map digitValue)
          + b ^ k * digitValue (m (str + k)) := by
      rw [List.map_append, Nat.ofDigits_append, List.length_map, readBytes_length]
      simp [Nat.ofDigits_singleton]
    have htot : n * b ^ (k + 1)
        + (Nat.ofDigits b ((readBytes m str k).map digitValue)
          + b ^ k * digitValue (m (str + k)))
        = (b * n + digitValue (m (str + k))) * b ^ k
          + Nat.ofDigits b ((readBytes m str k).map digitValue) := by ring
    rw [hval, htot] at hlt ⊢
    have hpow : 0 < b ^ k := Nat.pow_pos hbpos
    have hle : b * n + digitValue (m (str + k))
        ≤ (b * n + digitValue (m (str + k))) * b ^ k := Nat.le_mul_of_pos_right _ hpow
    have hsmall : b * n + digitValue (m (str + k)) < 2147483648 := by omega
    have hn : n < 4294967296 := by
      have : n ≤ b * n := Nat.le_mul_of_pos_left _ hbpos
      omega
    have hstep : wrapI32 (((b * toU32 (n : Int) + atoi_digit (m (str + k)) data) % 4294967296
        : Nat) : Int) = ((b * n + digitValue (m (str + k)) : Nat) : Int) := by
      rw [toU32_natCast n hn, hc.1, Nat.mod_eq_of_lt (by omega)]
      generalize b * n + digitValue (m (str + k)) = q at hsmall
      exact wrapI32_of_range _ (by omega) (by omega)
    simp only [atoi_loop, if_pos hbb, hstep]
    rw [hc.1]
    exact ih _ _ _ (fun c hcm => hdig c (by simp [hcm])) hlt

/-- The accumulation `num += data * (1 << (4 * i))` of `my_atoi` (base 16) over
`k` digit characters, read from index `k - 1` down to `0`. -/
theorem atoi_loop_hex (m : Mem) (str : Nat) (k : Nat) :
    ∀ (n data i : Nat), (∀ c ∈ readBytes m str k, isDigitChar 16 c) → i + k ≤ 8 →
      n + 16 ^ i * Nat.ofDigits 16 ((readBytes m str k).reverse.map digitValue) < 2147483648 →
      atoi_loop m str 16 k (n : Int) data i
        = ((n + 16 ^ i * Nat.ofDigits 16 ((readBytes m str k).reverse.map digitValue) : Nat)
            : Int) := by
  have hbb : ¬ ((16 : Nat) = BASE_10 ∨ (16 : Nat) = BASE_2) := by decide
  induction k with
  | zero =>
    intro n data i _ _ _
    simp [atoi_loop, readBytes]
  | succ k ih =>
    intro n data i hdig hik hlt
    rw [readBytes_succ_last] at hdig hlt ⊢
    have hc := atoi_digit_eq 16 (m (str + k)) data (by omega) (hdig _ (by simp))
    have hval : Nat.ofDigits 16 ((readBytes m str k ++ [m (str + k)]).reverse.map digitValue)
        = digitValue (m (str + k))
          + 16 * Nat.ofDigits 16 ((readBytes m str k).reverse.map digitValue) := by
      rw [List.reverse_append, List.reverse_singleton, List.singleton_append, List.map_cons,
        Nat.ofDigits_cons]
    have htot : n + 16 ^ i * (digitValue (m (str + k))
          + 16 * Nat.ofDigits 16 ((readBytes m str k).reverse.map digitValue))
        = (n + digitValue (m (str + k)) * 16 ^ i)
          + 16 ^ (i + 1) * Nat.ofDigits 16 ((readBytes m str k).reverse.map digitValue) := by
      ring
    rw [hval, htot] at hlt ⊢
    have hp : 16 ^ i ≤ 16 ^ 7 := Nat.pow_le_pow_right (by decide) (by omega)
    have hp7 : (16 : Nat) ^ 7 = 268435456 := by norm_num
    have hshift : ((1 : Int) * 2 ^ (4 * i)) = ((16 ^ i : Nat) : Int) := by
      rw [one_mul, pow_mul]
      norm_num
    have hw1 : wrapI32 ((1 : Int) * 2 ^ (4 * i)) = ((16 ^ i : Nat) : Int) := by
      rw [hshift]
      generalize 16 ^ i = q at hp
      exact wrapI32_of_range _ (by omega) (by omega)
    have hsum : n + digitValue (m (str + k)) * 16 ^ i < 2147483648 :=
      lt_of_le_of_lt (Nat.le_add_right _ _) hlt
    have hprod : digitValue (m (str + k)) * 16 ^ i < 2147483648 :=
      lt_of_le_of_lt (Nat.le_add_left _ _) hsum
    have hw2 : wrapI32 (((atoi_digit (m (str + k)) data : Nat) : Int) * ((16 ^ i : Nat) : Int))
        = ((digitValue (m (str + k)) * 16 ^ i : Nat) : Int) := by
      rw [hc.1, ← Nat.cast_mul]
      generalize digitValue (m (str + k)) * 16 ^ i = q at hprod
      exact wrapI32_of_range _ (by omega) (by omega)
    have hw3 : wrapI32 ((n : Int) + ((digitValue (m (str + k)) * 16 ^ i : Nat) : Int))
        = ((n + digitValue (m (str + k)) * 16 ^ i : Nat) : Int) := by
      rw [← Nat.cast_add]
      generalize n + digitValue (m (str + k)) * 16 ^ i = q at hsum
      exact wrapI32_of_range _ (by omega) (by omega)
    have hi : (i + 1) % 256 = i + 1 := Nat.mod_eq_of_lt (by omega)
    have hik1 : i + 1 + k ≤ 8 := by omega
    simp only [atoi_loop, if_neg hbb, hw1, hw2, hw3, hi]
    rw [hc.1]
    exact ih _ _ _ (fun c hcm => hdig c (by simp [hcm])) hik1 hlt

theorem my_atoi_unfold_nosign (m : Mem) (data0 str digits b : Nat)
    (hbase : ¬ ((b < BASE_2 ∨ b > BASE_16) ∨ b = BASE_8)) (hs : m str ≠ 45) (m1 : Mem)
    (hrev : (if b = BASE_10 ∨ b = BASE_2 then my_reverse REVERSE_FUEL m str ((digits + 255) % 256)
      else some m) = some m1) :
    my_atoi m data0 str digits b
      = some (m1, atoi_loop m1 str b ((digits + 255) % 256) 0 data0 0) := by
  unfold my_atoi
  simp only [if_neg hbase, if_neg hs, hrev]
  simp

/-- A numeral whose leading digit is not zero is at least `b ^ (length - 1)`. -/
theorem pow_le_numeral (b c : Nat) (rest : List Nat) (hc : 1 ≤ digitValue c) :
    b ^ rest.length ≤ Nat.ofDigits b ((c :: rest).reverse.map digitValue) := by
  rw [List.reverse_cons, List.map_append, Nat.ofDigits_append, List.length_map,
    List.length_reverse]
  simp only [List.map_cons, List.map_nil, Nat.ofDigits_singleton]
  calc b ^ rest.length = b ^ rest.length * 1 := by ring
    _ ≤ b ^ rest.length * digitValue c := Nat.mul_le_mul_left _ hc
    _ ≤ _ := Nat.le_add_left _ _

theorem numeral_length_le (b : Nat) (cs : List Nat) (hb2 : 2 ≤ b) (hb : b ≤ 16)
    (hdig : ∀ c ∈ cs, isDigitChar b c) (hlz : cs.length = 1 ∨ cs.head? ≠ some 48)
    (hval : Nat.ofDigits b (cs.reverse.map digitValue) ≤ 2147483647) :
    cs.length ≤ 32 ∧ (b = 16 → cs.length ≤ 8) := by
  cases cs with
  | nil => simp
  | cons c rest =>
    rcases hlz with h1 | h48
    · rw [h1]; exact ⟨by omega, fun _ => by omega⟩
    · have hc1 : 1 ≤ digitValue c := by
        have hd := hdig c (by simp)
        have hne : c ≠ 48 := by
          intro h; apply h48; rw [h]; rfl
        unfold isDigitChar at hd
        unfold digitValue
        split_ifs <;> omega
      have hpow := pow_le_numeral b c rest hc1
      simp only [List.length_cons]
      constructor
      · by_contra hcon
        have h2 : 2 ^ 31 ≤ 2 ^ rest.length := Nat.pow_le_pow_right (by decide) (by omega)
        have h3 : 2 ^ rest.length ≤ b ^ rest.length := Nat.pow_le_pow_left hb2 _
        have h4 : (2 : Nat) ^ 31 = 2147483648 := by norm_num
        omega
      · intro h16
        subst h16
        by_contra hcon
        have h2 : 16 ^ 8 ≤ 16 ^ rest.length := Nat.pow_le_pow_right (by decide) (by omega)
        have h4 : (16 : Nat) ^ 8 = 4294967296 := by norm_num
        omega

/-- C8: for base 2, 10 or 16 and a string of `k ≥ 1` valid digit characters, most
significant first, without leading zeros and of value at most `INT32_MAX`,
`my_atoi(str, k + 1, b)` returns the value of the numeral. -/
theorem my_atoi_unsigned (m : Mem) (data0 str b : Nat) (cs : List Nat)
    (hb : b = 2 ∨ b = 10 ∨ b = 16) (hmem : readBytes m str cs.length = cs) (hne : cs ≠ [])
    (hdig : ∀ c ∈ cs, isDigitChar b c) (hlz : cs.length = 1 ∨ cs.head? ≠ some 48)
    (hval : Nat.ofDigits b (cs.reverse.map digitValue) ≤ 2147483647) :
    ∃ m1, my_atoi m data0 str (cs.length + 1) b
      = some (m1, ((Nat.ofDigits b (cs.reverse.map digitValue) : Nat) : Int)) := by
  have hbase : ¬ ((b < BASE_2 ∨ b > BASE_16) ∨ b = BASE_8) := by
    unfold BASE_2 BASE_16 BASE_8; omega
  obtain ⟨hk32, hk8⟩ := numeral_length_le b cs (by omega) (by omega) hdig hlz hval
  have hdigits : (cs.length + 1 + 255) % 256 = cs.length := by omega
  have hsign : m str ≠ 45 := by
    cases cs with
    | nil => exact absurd rfl hne
    | cons c rest =>
      simp only [List.length_cons, readBytes, List.cons.injEq] at hmem
      have hd := hdig c (by simp)
      unfold isDigitChar at hd
      omega
  by_cases hrad : b = 10 ∨ b = 2
  · -- bases 10 and 2: the characters are reversed, then accumulated
    have hrev := my_reverse_eq m str cs.length REVERSE_FUEL (by omega)
      (by unfold REVERSE_FUEL; omega)
    rw [hmem] at hrev
    have hun := my_atoi_unfold_nosign m data0 str (cs.length + 1) b hbase hsign _
      (by rw [if_pos (show b = BASE_10 ∨ b = BASE_2 from hrad), hdigits]; exact hrev)
    rw [hdigits] at hun
    have hrb : readBytes (writeList m str cs.reverse) str cs.length = cs.reverse := by
      have := readBytes_writeList m str cs.reverse
      rwa [List.length_reverse] at this
    have hloop := atoi_loop_radix (writeList m str cs.reverse) str b hrad cs.length 0 data0 0
      (by rw [hrb]; intro c hc; exact hdig c (List.mem_reverse.mp hc))
      (by rw [hrb]; omega)
    rw [hrb] at hloop
    simp only [Nat.zero_mul, Nat.zero_add, Nat.cast_zero] at hloop
    exact ⟨_, by rw [hun, hloop]⟩
  · -- base 16: positional weights, no reversal
    have h16 : b = 16 := by omega
    subst h16
    have hun := my_atoi_unfold_nosign m data0 str (cs.length + 1) 16 hbase hsign m
      (by rw [if_neg (show ¬ ((16 : Nat) = BASE_10 ∨ (16 : Nat) = BASE_2) by decide)])
    rw [hdigits] at hun
    have hloop := atoi_loop_hex m str cs.length 0 data0 0
      (by rw [hmem]; exact hdig) (by have := hk8 rfl; omega)
      (by rw [hmem]; omega)
    rw [hmem] at hloop
    simp only [Nat.zero_add, Nat.cast_zero, pow_zero, Nat.one_mul] at hloop
    exact ⟨_, by rw [hun, hloop]⟩

/-- Witness of C8: `my_atoi("7Fa", 4, 16)` returns 2042. -/
theorem my_atoi_unsigned_witness :
    ∃ m1, my_atoi (writeList (constMem 0) 0 [55, 70, 97]) 0 0 4 16 = some (m1, 2042) := by
  obtain ⟨m1, h⟩ := my_atoi_unsigned (writeList (constMem 0) 0 [55, 70, 97]) 0 0 16
    [55, 70, 97] (by decide) (by decide) (by decide)
    (by intro c hc; simp at hc; rcases hc with h | h | h <;> subst h <;> simp [isDigitChar])
    (by decide) (by decide)
  exact ⟨m1, h⟩

/-- C9: the `'-'` does not shorten the digit loop: on `"-123\0"` with 5 characters
`my_atoi` also reads the terminator, for which the indeterminate local `data` is
accumulated as a leading digit; with `data` holding 7 the result is -7123, and
only with `data` holding 0 it is -123. -/
theorem my_atoi_negative_reads_terminator :
    (my_atoi (writeList (constMem 0) 0 [45, 49, 50, 51, 0]) 7 0 5 10).map (fun r => r.2)
      = some (-7123) ∧
    (my_atoi (writeList (constMem 0) 0 [45, 49, 50, 51, 0]) 0 0 5 10).map (fun r => r.2)
      = some (-123) := by
  decide

/-- C1: the round trip fails for a negative decimal: on a buffer filled with
`'9'`, `my_itoa(-123, buf, 10)` returns 5 and `my_atoi(buf, 5, 10)` then returns
-9123; on a zeroed buffer, with 7 in the indeterminate local `data`, it returns
-7123. -/
theorem itoa_atoi_roundtrip_negative_decimal :
    (my_itoa (constMem 57) 1000 (-123) 0 10).bind
        (fun r => (my_atoi r.1 0 0 r.2 10).map (fun q => (r.2, q.2))) = some (5, -9123) ∧
    (my_itoa (constMem 0) 1000 (-123) 0 10).bind
        (fun r => (my_atoi r.1 7 0 r.2 10).map (fun q => (r.2, q.2))) = some (5, -7123) := by
  decide

/-! ## memory.c, continued -/

/-- C11: the forward branch of `my_memmove` returns the advanced pointer:
`my_memmove(10, 0, 3)` returns `0 + 3`, while the backward branch
(`my_memmove(0, 1, 3)`) and the `src == dst` branch return `dst`. -/
theorem my_memmove_forward_returns_end :
    (my_memmove (constMem 0) 10 0 3).2 = 3 ∧
    (my_memmove (constMem 0) 0 1 3).2 = 1 ∧
    (my_memmove (constMem 0) 5 5 3).2 = 5 := by
  decide

/-- C12: for non-overlapping regions, after `my_memcopy(src, dst, length)` every
`dst[i]` equals `src[i]`, every byte outside the destination region (the source
region included) is unchanged, and the returned pointer is `dst`. -/
theorem my_memcopy_disjoint (m : Mem) (src dst length : Nat)
    (h : src + length ≤ dst ∨ dst + length ≤ src) :
    (∀ i, i < length → (my_memcopy m src dst length).1 (dst + i) = m (src + i)) ∧
    (∀ a, a < dst ∨ dst + length ≤ a → (my_memcopy m src dst length).1 a = m a) ∧
    (∀ i, i < length → (my_memcopy m src dst length).1 (src + i) = m (src + i)) ∧
    (my_memcopy m src dst length).2 = dst := by
  have he : (my_memcopy m src dst length).1 = writeList m dst (readBytes m src length) := by
    unfold my_memcopy
    rw [memcopy_loop_eq _ _ _ _ (by omega)]
  rw [he]
  refine ⟨fun i hi => ?_, fun a ha => ?_, fun i hi => ?_, rfl⟩
  · rw [writeList_inside _ _ _ _ (by rw [readBytes_length]; exact hi),
      readBytes_getD _ _ _ _ hi]
  · rw [writeList_outside _ _ _ _ (by rw [readBytes_length]; exact ha)]
  · rw [writeList_outside _ _ _ _ (by rw [readBytes_length]; omega)]

/-- Witness of C12: copying the 3 bytes at address 0 to address 10. -/
theorem my_memcopy_disjoint_witness :
    (∀ i, i < 3 → (my_memcopy (writeList (constMem 0) 0 [7, 8, 9]) 0 10 3).1 (10 + i)
      = writeList (constMem 0) 0 [7, 8, 9] (0 + i)) ∧
    (my_memcopy (writeList (constMem 0) 0 [7, 8, 9]) 0 10 3).2 = 10 :=
  have h := my_memcopy_disjoint (writeList (constMem 0) 0 [7, 8, 9]) 0 10 3 (by decide)
  ⟨h.1, h.2.2.2⟩

theorem reverse_loop_diverges (src lim : Nat) (hlim : 256 ≤ lim) (fuel : Nat) :
    ∀ (m : Mem) (i length source : Nat), i < 256 →
      reverse_loop src lim fuel m i length source = none := by
  induction fuel with
  | zero => intro m i length source _; rfl
  | succ fuel ih =>
    intro m i length source hi
    simp only [reverse_loop, if_pos (show i < lim by omega)]
    exact ih _ _ _ _ (Nat.mod_lt _ (by decide))

/-- C13: from 512 bytes on `my_reverse` never returns: its `uint8_t` counter `i`
stays below `length / 2`, so the loop runs out of any amount of fuel. -/
theorem my_reverse_never_returns (fuel : Nat) (m : Mem) (src n : Nat) :
    my_reverse fuel m src (512 + n) = none := by
  unfold my_reverse
  exact reverse_loop_diverges src _ (by omega) fuel m 0 _ src (by decide)

/-! ## stats.c -/

theorem readBytes_append (m : Mem) (p a b : Nat) :
    readBytes m p (a + b) = readBytes m p a ++ readBytes m (p + a) b := by
  induction a generalizing p with
  | zero => simp [readBytes]
  | succ a ih =>
    rw [show a + 1 + b = (a + b) + 1 by omega]
    simp only [readBytes, List.cons_append]
    rw [ih (p + 1), show p + 1 + a = p + (a + 1) by omega]

theorem mem_readBytes (m : Mem) (p n v : Nat) :
    v ∈ readBytes m p n ↔ ∃ k, k < n ∧ m (p + k) = v := by
  induction n with
  | zero => simp [readBytes]
  | succ n ih =>
    rw [readBytes_succ_last, List.mem_append, ih]
    constructor
    · rintro (⟨k, hk, hv⟩ | hv)
      · exact ⟨k, by omega, hv⟩
      · exact ⟨n, by omega, (List.mem_singleton.mp hv).symm⟩
    · rintro ⟨k, hk, hv⟩
      by_cases hkn : k = n
      · subst hkn
        exact Or.inr (List.mem_singleton.mpr hv.symm)
      · exact Or.inl ⟨k, by omega, hv⟩

/-- The exchange `tmp = *x; *x = *y; *y = tmp`, pointwise. -/
theorem swap_apply (m : Mem) (x y a : Nat) :
    store (store m x (m y)) y (m x) a = if a = y then m x else if a = x then m y else m a := by
  simp [store]

theorem swap_list_perm (A B C : List Nat) (u v : Nat) :
    (A ++ ([u] ++ (B ++ ([v] ++ C)))).Perm (A ++ ([v] ++ (B ++ ([u] ++ C)))) := by
  rw [List.perm_iff_count]
  intro a
  simp only [List.count_append]
  omega

/-- Exchanging two bytes of a region permutes its contents. -/
theorem perm_swap (m : Mem) (p n x y : Nat) (h1 : p ≤ x) (h2 : x < y) (h3 : y < p + n) :
    (readBytes (store (store m x (m y)) y (m x)) p n).Perm (readBytes m p n) := by
  obtain ⟨a, rfl⟩ : ∃ a, x = p + a := ⟨x - p, by omega⟩
  obtain ⟨b, rfl⟩ : ∃ b, y = p + a + 1 + b := ⟨y - (p + a) - 1, by omega⟩
  obtain ⟨c, rfl⟩ : ∃ c, n = a + (1 + (b + (1 + c))) := ⟨n - a - b - 2, by omega⟩
  have hA : readBytes (store (store m (p + a) (m (p + a + 1 + b))) (p + a + 1 + b) (m (p + a)))
      p a = readBytes m p a := by
    apply readBytes_congr
    intro i hi
    rw [swap_apply, if_neg (by omega), if_neg (by omega)]
  have hB : readBytes (store (store m (p + a) (m (p + a + 1 + b))) (p + a + 1 + b) (m (p + a)))
      (p + a + 1) b = readBytes m (p + a + 1) b := by
    apply readBytes_congr
    intro i hi
    rw [swap_apply, if_neg (by omega), if_neg (by omega)]
  have hC : readBytes (store (store m (p + a) (m (p + a + 1 + b))) (p + a + 1 + b) (m (p + a)))
      (p + a + 1 + b + 1) c = readBytes m (p + a + 1 + b + 1) c := by
    apply readBytes_congr
    intro i hi
    rw [swap_apply, if_neg (by omega), if_neg (by omega)]
  have hx : readBytes (store (store m (p + a) (m (p + a + 1 + b))) (p + a + 1 + b) (m (p + a)))
      (p + a) 1 = [m (p + a + 1 + b)] := by
    simp only [readBytes]
    rw [swap_apply, if_neg (by omega), if_pos rfl]
  have hy : readBytes (store (store m (p + a) (m (p + a + 1 + b))) (p + a + 1 + b) (m (p + a)))
      (p + a + 1 + b) 1 = [m (p + a)] := by
    simp only [readBytes]
    rw [swap_apply, if_pos rfl]
  have hx0 : readBytes m (p + a) 1 = [m (p + a)] := rfl
  have hy0 : readBytes m (p + a + 1 + b) 1 = [m (p + a + 1 + b)] := rfl
  rw [readBytes_append, readBytes_append, readBytes_append, readBytes_append,
    readBytes_append, readBytes_append, readBytes_append, readBytes_append,
    hA, hB, hC, hx, hy, hx0, hy0]
  exact swap_list_perm _ _ _ _ _

/-- Inner loop of `sort_array` from `j` on: it ends, touches only `array[i..size)`,
permutes it, and leaves in `array[i]` a value not below any later one. -/
theorem sort_inner_spec (array size i : Nat) (hsize : size ≤ 255) (hi : i < size) (k : Nat) :
    ∀ (j fuel : Nat) (m : Mem), j + k = size → i < j → k < fuel →
      (∀ b, i < b → b < j → m (array + b) ≤ m (array + i)) →
      ∃ m1, sort_inner array size i fuel m j = some m1 ∧
        (∀ a, a < array + i ∨ array + size ≤ a → m1 a = m a) ∧
        (readBytes m1 (array + i) (size - i)).Perm (readBytes m (array + i) (size - i)) ∧
        (∀ b, i < b → b < size → m1 (array + b) ≤ m1 (array + i)) := by
  induction k with
  | zero =>
    intro j fuel m hj hij hf hinv
    obtain ⟨f, rfl⟩ : ∃ f, fuel = f + 1 := ⟨fuel - 1, by omega⟩
    have hjs : j = size := by omega
    subst hjs
    refine ⟨m, ?_, fun _ _ => rfl, List.Perm.refl _, hinv⟩
    simp [sort_inner]
  | succ k ih =>
    intro j fuel m hj hij hf hinv
    obtain ⟨f, rfl⟩ : ∃ f, fuel = f + 1 := ⟨fuel - 1, by omega⟩
    have hjs : j < size := by omega
    have hj1 : (j + 1) % 256 = j + 1 := Nat.mod_eq_of_lt (by omega)
    by_cases hlt : m (array + i) < m (array + j)
    · -- the two elements are exchanged
      have hinv2 : ∀ b, i < b → b < j + 1 →
          store (store m (array + i) (m (array + j))) (array + j) (m (array + i)) (array + b)
            ≤ store (store m (array + i) (m (array + j))) (array + j) (m (array + i))
                (array + i) := by
        intro b hb1 hb2
        rw [swap_apply, swap_apply, if_neg (show ¬ array + i = array + j by omega), if_pos rfl]
        by_cases hbj : b = j
        · subst hbj
          rw [if_pos rfl]
          omega
        · rw [if_neg (by omega), if_neg (by omega)]
          have := hinv b hb1 (by omega)
          omega
      obtain ⟨m1, hrun, hframe, hperm, hmax⟩ := ih (j + 1) f _ (by omega) (by omega) (by omega) hinv2
      refine ⟨m1, ?_, ?_, ?_, hmax⟩
      · simp only [sort_inner, if_pos hjs, if_pos hlt, hj1]
        exact hrun
      · intro a ha
        rw [hframe a ha, swap_apply, if_neg (by omega), if_neg (by omega)]
      · exact hperm.trans (perm_swap m (array + i) (size - i) (array + i) (array + j)
          (by omega) (by omega) (by omega))
    · -- nothing is exchanged
      have hinv2 : ∀ b, i < b → b < j + 1 → m (array + b) ≤ m (array + i) := by
        intro b hb1 hb2
        by_cases hbj : b = j
        · subst hbj; omega
        · exact hinv b hb1 (by omega)
      obtain ⟨m1, hrun, hframe, hperm, hmax⟩ := ih (j + 1) f m (by omega) (by omega) (by omega) hinv2
      refine ⟨m1, ?_, hframe, hperm, hmax⟩
      simp only [sort_inner, if_pos hjs, if_neg hlt, hj1]
      exact hrun

/-- Outer loop of `sort_array` from `i` on, when `array[0..i)` is already in
descending order and not below the rest. -/
theorem sort_outer_spec (array size : Nat) (hsize : size ≤ 255) (k : Nat) :
    ∀ (i fuel : Nat) (m : Mem), i + k = size → k < fuel →
      (∀ a b, a < i → a < b → b < size → m (array + b) ≤ m (array + a)) →
      ∃ m1, sort_outer array size fuel m i = some m1 ∧
        (∀ a, a < array ∨ array + size ≤ a → m1 a = m a) ∧
        (readBytes m1 array size).Perm (readBytes m array size) ∧
        (∀ a b, a < b → b < size → m1 (array + b) ≤ m1 (array + a)) := by
  induction k with
  | zero =>
    intro i fuel m hi hf hinv
    obtain ⟨f, rfl⟩ : ∃ f, fuel = f + 1 := ⟨fuel - 1, by omega⟩
    have his : i = size := by omega
    subst his
    refine ⟨m, ?_, fun _ _ => rfl, List.Perm.refl _, fun a b hab hb => hinv a b (by omega) hab hb⟩
    simp [sort_outer]
  | succ k ih =>
    intro i fuel m hi hf hinv
    obtain ⟨f, rfl⟩ : ∃ f, fuel = f + 1 := ⟨fuel - 1, by omega⟩
    have his : i < size := by omega
    have hi1 : (i + 1) % 256 = i + 1 := Nat.mod_eq_of_lt (by omega)
    obtain ⟨m1, hrun, hframe, hperm, hmax⟩ := sort_inner_spec array size i hsize his k (i + 1) f m
      (by omega) (by omega) (by omega) (fun b hb1 hb2 => by omega)
    have hinv1 : ∀ a b, a < i + 1 → a < b → b < size → m1 (array + b) ≤ m1 (array + a) := by
      intro a b ha hab hb
      by_cases hai : a = i
      · subst hai
        exact hmax b hab hb
      · rw [hframe (array + a) (by omega)]
        by_cases hbi : b < i
        · rw [hframe (array + b) (by omega)]
          exact hinv a b (by omega) hab hb
        · have hmem : m1 (array + b) ∈ readBytes m1 (array + i) (size - i) :=
            (mem_readBytes _ _ _ _).mpr ⟨b - i, by omega, by congr 1; omega⟩
          obtain ⟨c, hc, hcv⟩ := (mem_readBytes _ _ _ _).mp (hperm.mem_iff.mp hmem)
          rw [← hcv, show array + i + c = array + (i + c) by omega]
          exact hinv a (i + c) (by omega) (by omega) (by omega)
    obtain ⟨m2, hrun2, hframe2, hperm2, hsorted⟩ := ih (i + 1) f m1 (by omega) (by omega) hinv1
    refine ⟨m2, ?_, ?_, ?_, hsorted⟩
    · simp only [sort_outer, if_pos his, hi1, hrun]
      exact hrun2
    · intro a ha
      rw [hframe2 a ha, hframe a (by omega)]
    · refine hperm2.trans ?_
      have hsplit : size = i + (size - i) := by omega
      rw [hsplit, readBytes_append, readBytes_append]
      have hpre : readBytes m1 array i = readBytes m array i := by
        apply readBytes_congr
        intro c hc
        exact hframe _ (by omega)
      rw [hpre]
      exact List.Perm.append_left _ hperm

theorem sort_inner_id (array size i : Nat) (hsize : size ≤ 255) (k : Nat) :
    ∀ (j fuel : Nat) (m : Mem), j + k = size → k < fuel →
      (∀ b, j ≤ b → b < size → m (array + b) ≤ m (array + i)) →
      sort_inner array size i fuel m j = some m := by
  induction k with
  | zero =>
    intro j fuel m hj hf _
    obtain ⟨f, rfl⟩ : ∃ f, fuel = f + 1 := ⟨fuel - 1, by omega⟩
    simp [sort_inner, show ¬ j < size by omega]
  | succ k ih =>
    intro j fuel m hj hf hle
    obtain ⟨f, rfl⟩ : ∃ f, fuel = f + 1 := ⟨fuel - 1, by omega⟩
    have hjs : j < size := by omega
    have hj1 : (j + 1) % 256 = j + 1 := Nat.mod_eq_of_lt (by omega)
    have hno : ¬ m (array + i) < m (array + j) := by
      have := hle j (Nat.le_refl _) hjs
      omega
    simp only [sort_inner, if_pos hjs, if_neg hno, hj1]
    exact ih (j + 1) f m (by omega) (by omega) (fun b hb1 hb2 => hle b (by omega) hb2)

/-- An array already in descending order is left as it is. -/
theorem sort_outer_id (array size : Nat) (hsize : size ≤ 255) (m : Mem)
    (hsorted : ∀ a b, a < b → b < size → m (array + b) ≤ m (array + a)) (k : Nat) :
    ∀ (i fuel : Nat), i + k = size → k < fuel → sort_outer array size fuel m i = some m := by
  induction k with
  | zero =>
    intro i fuel hi hf
    obtain ⟨f, rfl⟩ : ∃ f, fuel = f + 1 := ⟨fuel - 1, by omega⟩
    simp [sort_outer, show ¬ i < size by omega]
  | succ k ih =>
    intro i fuel hi hf
    obtain ⟨f, rfl⟩ : ∃ f, fuel = f + 1 := ⟨fuel - 1, by omega⟩
    have his : i < size := by omega
    have hi1 : (i + 1) % 256 = i + 1 := Nat.mod_eq_of_lt (by omega)
    have hin := sort_inner_id array size i hsize k (i + 1) f m (by omega) (by omega)
      (fun b hb1 hb2 => hsorted i b (by omega) hb2)
    simp only [sort_outer, if_pos his, hi1, hin]
    exact ih (i + 1) f (by omega) (by omega)

theorem readBytes_pairwise (m : Mem) (p n : Nat)
    (h : ∀ a b, a < b → b < n → m (p + b) ≤ m (p + a)) :
    List.Pairwise (fun x y => y ≤ x) (readBytes m p n) := by
  induction n generalizing p with
  | zero => exact List.Pairwise.nil
  | succ n ih =>
    simp only [readBytes]
    refine List.Pairwise.cons ?_ (ih (p + 1) ?_)
    · intro v hv
      obtain ⟨c, hc, hcv⟩ := (mem_readBytes _ _ _ _).mp hv
      rw [← hcv, show p + 1 + c = p + (c + 1) by omega]
      exact h 0 (c + 1) (by omega) (by omega)
    · intro a b hab hb
      rw [show p + 1 + b = p + (b + 1) by omega, show p + 1 + a = p + (a + 1) by omega]
      exact h (a + 1) (b + 1) (by omega) (by omega)

/-- C14: for size ≤ 255 `sort_array` returns and leaves the array equal to the
descending sort of its input: a permutation of the input with
`array[i] >= array[i+1]` for every `i < size - 1`; bytes outside the array are
unchanged. -/
theorem sort_array_descending (m : Mem) (array size fuel : Nat) (hsize : size ≤ 255)
    (hfuel : size < fuel) :
    ∃ m1, sort_array fuel m array size = some m1 ∧
      (readBytes m1 array size).Perm (readBytes m array size) ∧
      (∀ i, i + 1 < size → m1 (array + (i + 1)) ≤ m1 (array + i)) ∧
      readBytes m1 array size
        = List.insertionSort (fun x y => y ≤ x) (readBytes m array size) ∧
      (∀ a, a < array ∨ array + size ≤ a → m1 a = m a) := by
  obtain ⟨m1, hrun, hframe, hperm, hsorted⟩ := sort_outer_spec array size hsize size 0 fuel m
    (by omega) hfuel (fun a b ha _ _ => by omega)
  refine ⟨m1, hrun, hperm, fun i hi => hsorted i (i + 1) (by omega) hi, ?_, hframe⟩
  have hpw := readBytes_pairwise m1 array size hsorted
  have htot : IsTotal Nat (fun x y => y ≤ x) := ⟨fun a b => Nat.le_total b a⟩
  have htr : IsTrans Nat (fun x y => y ≤ x) := ⟨fun a b c h1 h2 => Nat.le_trans h2 h1⟩
  have hanti : IsAntisymm Nat (fun x y => y ≤ x) := ⟨fun a b h1 h2 => Nat.le_antisymm h2 h1⟩
  exact List.eq_of_perm_of_sorted
    (hperm.trans (List.perm_insertionSort (fun x y => y ≤ x) (readBytes m array size)).symm)
    hpw (List.sorted_insertionSort (fun x y => y ≤ x) (readBytes m array size))

/-- Witness of C14: `[3, 1, 2]` becomes `[3, 2, 1]`. -/
theorem sort_array_descending_witness :
    ∃ m1, sort_array 4 (writeList (constMem 0) 0 [3, 1, 2]) 0 3 = some m1 ∧
      readBytes m1 0 3 = [3, 2, 1] := by
  obtain ⟨m1, hrun, -, -, heq, -⟩ := sort_array_descending (writeList (constMem 0) 0 [3, 1, 2])
    0 3 4 (by decide) (by decide)
  refine ⟨m1, hrun, ?_⟩
  rw [heq]
  decide

/-- C15: for size ≤ 255 `sort_array` is idempotent: sorting the sorted array once
more returns the same memory, and an array already in descending order is left
unchanged. -/
theorem sort_array_idempotent (m : Mem) (array size fuel : Nat) (hsize : size ≤ 255)
    (hfuel : size < fuel) :
    ∃ m1, sort_array fuel m array size = some m1 ∧
      sort_array fuel m1 array size = some m1 ∧
      ((∀ a b, a < b → b < size → m (array + b) ≤ m (array + a)) → m1 = m) := by
  obtain ⟨m1, hrun, -, -, hsorted⟩ := sort_outer_spec array size hsize size 0 fuel m
    (by omega) hfuel (fun a b ha _ _ => by omega)
  refine ⟨m1, hrun, sort_outer_id array size hsize m1 hsorted size 0 fuel (by omega) hfuel, ?_⟩
  intro hs
  have hid := sort_outer_id array size hsize m hs size 0 fuel (by omega) hfuel
  have hrun1 : sort_outer array size fuel m 0 = some m1 := hrun
  rw [hid] at hrun1
  exact (Option.some.inj hrun1).symm

/-- Witness of C15: sorting `[3, 1, 2]` twice. -/
theorem sort_array_idempotent_witness :
    ∃ m1, sort_array 4 (writeList (constMem 0) 0 [3, 1, 2]) 0 3 = some m1 ∧
      sort_array 4 m1 0 3 = some m1 := by
  obtain ⟨m1, h1, h2, -⟩ := sort_array_idempotent (writeList (constMem 0) 0 [3, 1, 2])
    0 3 4 (by decide) (by decide)
  exact ⟨m1, h1, h2⟩

/-- C16: for a non-empty array of size ≤ 255, after `sort_array` the value of
`find_maximum` is an element of the original array not below any other, and the
value of `find_minimum` is an element of the original array not above any other. -/
theorem extrema_after_sort (m : Mem) (array size fuel : Nat) (h0 : 0 < size)
    (hsize : size ≤ 255) (hfuel : size < fuel) :
    ∃ m1, sort_array fuel m array size = some m1 ∧
      find_maximum m1 array size ∈ readBytes m array size ∧
      (∀ v, v ∈ readBytes m array size → v ≤ find_maximum m1 array size) ∧
      find_minimum m1 array size ∈ readBytes m array size ∧
      (∀ v, v ∈ readBytes m array size → find_minimum m1 array size ≤ v) := by
  obtain ⟨m1, hrun, -, hperm, hsorted⟩ := sort_outer_spec array size hsize size 0 fuel m
    (by omega) hfuel (fun a b ha _ _ => by omega)
  have hidx : (size + 2 ^ SIZE_BITS - 1) % 2 ^ SIZE_BITS = size - 1 := by
    have hp : 0 < 2 ^ SIZE_BITS := Nat.pow_pos (by decide)
    rw [show size + 2 ^ SIZE_BITS - 1 = (size - 1) + 2 ^ SIZE_BITS by omega, Nat.add_mod_right]
    apply Nat.mod_eq_of_lt
    calc size - 1 < 256 := by omega
      _ ≤ 2 ^ SIZE_BITS := by decide
  have hmax : find_maximum m1 array size = m1 (array + 0) := rfl
  have hmin : find_minimum m1 array size = m1 (array + (size - 1)) := by
    unfold find_minimum
    rw [hidx]
  refine ⟨m1, hrun, ?_, ?_, ?_, ?_⟩ <;> (try rw [hmax]) <;> (try rw [hmin])
  · exact hperm.mem_iff.mp ((mem_readBytes _ _ _ _).mpr ⟨0, h0, rfl⟩)
  · intro v hv
    obtain ⟨c, hc, hcv⟩ := (mem_readBytes _ _ _ _).mp (hperm.mem_iff.mpr hv)
    rw [← hcv]
    by_cases hc0 : c = 0
    · subst hc0; exact Nat.le_refl _
    · exact hsorted 0 c (by omega) hc
  · exact hperm.mem_iff.mp ((mem_readBytes _ _ _ _).mpr ⟨size - 1, by omega, rfl⟩)
  · intro v hv
    obtain ⟨c, hc, hcv⟩ := (mem_readBytes _ _ _ _).mp (hperm.mem_iff.mpr hv)
    rw [← hcv]
    by_cases hcl : c = size - 1
    · subst hcl; exact Nat.le_refl _
    · exact hsorted c (size - 1) (by omega) (by omega)

/-- Witness of C16: for `[3, 1, 2]` the maximum is 3 and the minimum is 1. -/
theorem extrema_after_sort_witness :
    ∃ m1, sort_array 4 (writeList (constMem 0) 0 [3, 1, 2]) 0 3 = some m1 ∧
      find_maximum m1 0 3 = 3 ∧ find_minimum m1 0 3 = 1 := by
  obtain ⟨m1, hrun, -, -, -, -⟩ := extrema_after_sort (writeList (constMem 0) 0 [3, 1, 2])
    0 3 4 (by decide) (by decide) (by decide)
  have hv : (sort_array 4 (writeList (constMem 0) 0 [3, 1, 2]) 0 3).map
      (fun r => (find_maximum r 0 3, find_minimum r 0 3)) = some (3, 1) := by decide
  rw [hrun] at hv
  simp only [Option.map_some', Option.some.injEq, Prod.mk.injEq] at hv
  exact ⟨m1, hrun, hv.1, hv.2⟩

/-- C17: the sum of `find_mean` is kept in a `uint8_t`: for `[200, 100]` it wraps
to 44 and the result is 22, not 150; for `[10, 20]` the result is 15. -/
theorem find_mean_sum_wraps :
    find_mean 3 (writeList (constMem 0) 0 [200, 100]) 0 2 = some (Arith.val 22) ∧
    find_mean 3 (writeList (constMem 0) 0 [10, 20]) 0 2 = some (Arith.val 15) := by
  decide

/-- C18: for an odd size `find_median` averages `array[size/2-1]` and
`array[size/2]`: for the sorted `[5, 3, 1]` it returns 4, not the central 3; for
size 1 the first index wraps to `SIZE_MAX` and a byte outside the array (here 9)
enters the result. -/
theorem find_median_odd_size :
    find_median (writeList (constMem 0) 0 [5, 3, 1]) 0 3 = 4 ∧
    find_median (writeList (constMem 9) 0 [5]) 0 1 = 7 := by
  decide

/-- C19, as stated, fails: for size 0 `find_mean` reaches the division by zero and
`find_median` returns an ordinary value (7, read outside the empty array). -/
theorem stats_empty_input_unchecked :
    find_mean 1 (constMem 7) 0 0 = some Arith.divByZero ∧
    find_median (constMem 7) 0 0 = 7 := by
  decide

/-- C19, amended: for size 0 `find_mean` has no error result and reaches the
division `sum/size` with `size == 0`; the empty case is handled by the caller:
`print_statistics` prints the error line in place of the mean, without calling
`find_mean`. -/
theorem find_mean_empty_guarded_by_caller (fuel : Nat) (m : Mem) (array : Nat) :
    find_mean (fuel + 1) m array 0 = some Arith.divByZero ∧
    print_statistics fuel m array 0
      = some [Line.rule, Line.maximum (find_maximum m array 0),
          Line.minimum (find_minimum m array 0), Line.median (find_median m array 0),
          Line.meanError, Line.rule] := by
  constructor
  · simp [find_mean, mean_loop]
  · simp [print_statistics]

/-! ## data.c, continued -/

/-- C20: a character that is no digit is not skipped: `data` keeps the previous
digit, which is accumulated once more.  `my_atoi("1x\0", 3, b)` returns 11 for
base 10 and 3 for base 2; for base 16 the `'x'` still takes a position, and with
the indeterminate `data` holding 0 the result is 16.  The string `"1"` has the
value 1 in each base. -/
theorem my_atoi_nondigit_not_skipped :
    (my_atoi (writeList (constMem 0) 0 [49, 120, 0]) 0 0 3 10).map (fun r => r.2) = some 11 ∧
    (my_atoi (writeList (constMem 0) 0 [49, 120, 0]) 0 0 3 2).map (fun r => r.2) = some 3 ∧
    (my_atoi (writeList (constMem 0) 0 [49, 120, 0]) 0 0 3 16).map (fun r => r.2) = some 16 ∧
    (my_atoi (writeList (constMem 0) 0 [49, 0]) 0 0 2 10).map (fun r => r.2) = some 1 := by
  decide

/-! ## data.c: bounds of `my_itoa` -/

/-- C21: for every 32-bit value and base 2, 10 or 16, `my_itoa` returns a length
`n` of at most `MAX_LEN` = 33 (so at most 34); its scratch array holds the `n - 1`
output characters at indices `0..n-2` and the terminator at index `n - 1 <= 32`,
and no byte outside the `MAX_LEN` bytes of the scratch array and the `n - 1`
output bytes is changed. -/
theorem my_itoa_within_scratch (m : Mem) (sp : Nat) (v : Int) (ptr b : Nat)
    (hb : b = 2 ∨ b = 10 ∨ b = 16) (h1 : -2147483648 ≤ v) (h2 : v < 2147483648)
    (hdisj : ptr + 34 ≤ sp ∨ sp + 33 ≤ ptr) :
    ∃ m1 n, my_itoa m sp v ptr b = some (m1, n) ∧ n ≤ 34 ∧ 1 ≤ n ∧ n ≤ MAX_LEN ∧
      readBytes m1 sp (n - 1) = itoa_out v b ∧ m1 (sp + (n - 1)) = 0 ∧
      (∀ a, (a < sp ∨ sp + MAX_LEN ≤ a) → (a < ptr ∨ ptr + (n - 1) ≤ a) → m1 a = m a) := by
  obtain ⟨t, ht, hrev, hrun⟩ := my_itoa_explicit m sp v ptr b hb h1 h2 hdisj
  obtain ⟨-, -, hframe⟩ := itoa_tail m sp ptr t ht hdisj
  obtain ⟨hs1, hs2⟩ := itoa_tail_scratch m sp ptr t ht hdisj
  refine ⟨_, t.length + 1, hrun, by omega, by omega, by unfold MAX_LEN; omega, ?_, ?_, ?_⟩
  · rw [Nat.add_sub_cancel, hs1, hrev]
  · rw [Nat.add_sub_cancel, hs2]
  · intro a ha hp
    rw [Nat.add_sub_cancel] at hp
    exact hframe a hp (by unfold MAX_LEN at ha; exact ha)

/-- Witness of C21: `my_itoa(INT32_MIN, ptr, 2)` returns 33 and puts its terminator
at index 32 of the scratch array. -/
theorem my_itoa_within_scratch_witness :
    ∃ m1, my_itoa (constMem 7) 1000 (-2147483648) 0 2 = some (m1, 33) ∧ m1 (1000 + 32) = 0 ∧
      m1 (1000 + 33) = 7 := by
  obtain ⟨m1, n, hrun, -, -, -, -, hterm, hframe⟩ := my_itoa_within_scratch (constMem 7) 1000
    (-2147483648) 0 2 (by decide) (by decide) (by decide) (by decide)
  have hn : (my_itoa (constMem 7) 1000 (-2147483648) 0 2).map (fun r => r.2) = some 33 := by
    decide
  rw [hrun] at hn
  simp only [Option.map_some', Option.some.injEq] at hn
  subst hn
  exact ⟨m1, hrun, hterm, hframe _ (by unfold MAX_LEN; omega) (by omega)⟩

/-! ## data.c: the string after `my_atoi` -/

/-- The memory returned by `my_atoi` is the one left by its `my_reverse` call. -/
theorem my_atoi_unfold_mem (m : Mem) (data0 str digits b : Nat)
    (hbase : ¬ ((b < BASE_2 ∨ b > BASE_16) ∨ b = BASE_8)) (m1 : Mem)
    (hrev : (if b = BASE_10 ∨ b = BASE_2 then
        my_reverse REVERSE_FUEL m (if m str = 45 then str + 1 else str)
          (if m str = 45 then ((digits + 255) % 256 + 2 ^ SIZE_BITS - 1) % 2 ^ SIZE_BITS
            else (digits + 255) % 256)
      else some m) = some m1) :
    ∃ r, my_atoi m data0 str digits b = some (m1, r) := by
  unfold my_atoi
  simp only [if_neg hbase, hrev]
  split_ifs <;> exact ⟨_, rfl⟩

/-- Writing a region's own content back over its reversal restores the memory. -/
theorem writeList_restore (m : Mem) (q : Nat) (cs : List Nat)
    (hmem : readBytes m q cs.length = cs) :
    writeList (writeList m q cs.reverse) q cs = m := by
  funext a
  rw [writeList_apply]
  by_cases hin : q ≤ a ∧ a < q + cs.length
  · rw [if_pos hin]
    have h := readBytes_getD m q cs.length (a - q) (by omega)
    rw [hmem, show q + (a - q) = a by omega] at h
    exact h
  · rw [if_neg hin, writeList_outside _ _ _ _ (by rw [List.length_reverse]; omega)]

/-- Memory after `my_atoi` in base 2 or 10: the characters behind the optional
sign are reversed in place. -/
theorem my_atoi_radix_mem (m : Mem) (data0 str b : Nat) (pre cs : List Nat)
    (hb : b = 2 ∨ b = 10) (hpre : pre = [] ∨ pre = [45])
    (hmem : readBytes m str (pre.length + cs.length) = pre ++ cs) (hne : cs ≠ [])
    (hdig : ∀ c ∈ cs, isDigitChar b c) (hlen : pre.length + cs.length + 1 ≤ 255) :
    readBytes m (str + pre.length) cs.length = cs ∧
    ∃ r, my_atoi m data0 str (pre.length + cs.length + 1) b
      = some (writeList m (str + pre.length) cs.reverse, r) := by
  have hbase : ¬ ((b < BASE_2 ∨ b > BASE_16) ∨ b = BASE_8) := by
    unfold BASE_2 BASE_16 BASE_8; omega
  have hrad : b = BASE_10 ∨ b = BASE_2 := by unfold BASE_10 BASE_2; omega
  have hsplit := readBytes_append m str pre.length cs.length
  rw [hmem] at hsplit
  have hparts := List.append_inj hsplit (by rw [readBytes_length])
  have hcs : readBytes m (str + pre.length) cs.length = cs := hparts.2.symm
  have hdigits : (pre.length + cs.length + 1 + 255) % 256 = pre.length + cs.length := by omega
  have hrev := my_reverse_eq m (str + pre.length) cs.length REVERSE_FUEL (by omega)
    (by unfold REVERSE_FUEL; omega)
  rw [hcs] at hrev
  refine ⟨hcs, ?_⟩
  apply my_atoi_unfold_mem m data0 str _ b hbase
  rw [if_pos hrad, hdigits]
  rcases hpre with hp | hp
  · -- no sign: the first character is a digit
    subst hp
    have hsign : m str ≠ 45 := by
      cases cs with
      | nil => exact absurd rfl hne
      | cons c rest =>
        simp only [List.length_nil, Nat.zero_add, List.length_cons, readBytes, List.nil_append,
          List.cons.injEq] at hmem
        have hd := hdig c (by simp)
        unfold isDigitChar at hd
        omega
    simp only [List.length_nil, Nat.add_zero, Nat.zero_add] at hrev ⊢
    rw [if_neg hsign, if_neg hsign]
    exact hrev
  · -- a sign: one character is skipped
    subst hp
    have hsign : m str = 45 := by
      have h0 : readBytes m str 1 = [45] := hparts.1.symm
      simp only [readBytes, List.cons.injEq, and_true] at h0
      exact h0
    have hl : (1 + cs.length + 2 ^ SIZE_BITS - 1) % 2 ^ SIZE_BITS = cs.length := by
      have hp : 0 < 2 ^ SIZE_BITS := Nat.pow_pos (by decide)
      rw [show 1 + cs.length + 2 ^ SIZE_BITS - 1 = cs.length + 2 ^ SIZE_BITS by omega,
        Nat.add_mod_right]
      apply Nat.mod_eq_of_lt
      calc cs.length < 256 := by simp only [List.length_singleton] at hlen; omega
        _ ≤ 2 ^ SIZE_BITS := by decide
    simp only [List.length_singleton] at hrev ⊢
    rw [if_pos hsign, if_pos hsign, hl]
    exact hrev

/-- Value and memory of `my_atoi` in base 2 or 10 on an unsigned digit string. -/
theorem my_atoi_radix_value (m : Mem) (data0 str b : Nat) (cs : List Nat)
    (hb : b = 2 ∨ b = 10) (hmem : readBytes m str cs.length = cs) (hne : cs ≠ [])
    (hdig : ∀ c ∈ cs, isDigitChar b c) (hlen : cs.length + 1 ≤ 255)
    (hval : Nat.ofDigits b (cs.reverse.map digitValue) ≤ 2147483647) :
    my_atoi m data0 str (cs.length + 1) b
      = some (writeList m str cs.reverse,
          ((Nat.ofDigits b (cs.reverse.map digitValue) : Nat) : Int)) := by
  have hbase : ¬ ((b < BASE_2 ∨ b > BASE_16) ∨ b = BASE_8) := by
    unfold BASE_2 BASE_16 BASE_8; omega
  have hrad : b = 10 ∨ b = 2 := by omega
  have hdigits : (cs.length + 1 + 255) % 256 = cs.length := by omega
  have hsign : m str ≠ 45 := by
    cases cs with
    | nil => exact absurd rfl hne
    | cons c rest =>
      simp only [List.length_cons, readBytes, List.cons.injEq] at hmem
      have hd := hdig c (by simp)
      unfold isDigitChar at hd
      omega
  have hrev := my_reverse_eq m str cs.length REVERSE_FUEL (by omega)
    (by unfold REVERSE_FUEL; omega)
  rw [hmem] at hrev
  have hun := my_atoi_unfold_nosign m data0 str (cs.length + 1) b hbase hsign _
    (by rw [if_pos (show b = BASE_10 ∨ b = BASE_2 from hrad), hdigits]; exact hrev)
  rw [hdigits] at hun
  have hrb : readBytes (writeList m str cs.reverse) str cs.length = cs.reverse := by
    have := readBytes_writeList m str cs.reverse
    rwa [List.length_reverse] at this
  have hloop := atoi_loop_radix (writeList m str cs.reverse) str b hrad cs.length 0 data0 0
    (by rw [hrb]; intro c hc; exact hdig c (List.mem_reverse.mp hc))
    (by rw [hrb]; omega)
  rw [hrb] at hloop
  simp only [Nat.zero_mul, Nat.zero_add, Nat.cast_zero] at hloop
  rw [hun, hloop]

/-- C22: `my_atoi` modifies the caller's string.  For base 2 and 10 and `k` digit
characters behind an optional `'-'`, the buffer afterwards holds the same sign and
the `k` characters in reversed order, nothing else is changed and a second call
reverses them back; for an unsigned string the first call returns the value of
the numeral and the second call the value of the reversed numeral.  For base 16
the memory is unchanged. -/
theorem my_atoi_reverses_string (m : Mem) (data0 str b : Nat) (pre cs : List Nat)
    (hb : b = 2 ∨ b = 10 ∨ b = 16) (hpre : pre = [] ∨ pre = [45])
    (hmem : readBytes m str (pre.length + cs.length) = pre ++ cs) (hne : cs ≠ [])
    (hdig : ∀ c ∈ cs, isDigitChar b c) (hlen : pre.length + cs.length + 1 ≤ 255) :
    ∃ m1 r, my_atoi m data0 str (pre.length + cs.length + 1) b = some (m1, r) ∧
      (b = 16 → m1 = m) ∧
      (b ≠ 16 →
        readBytes m1 str (pre.length + cs.length) = pre ++ cs.reverse ∧
        (∀ a, a < str + pre.length ∨ str + pre.length + cs.length ≤ a → m1 a = m a) ∧
        (∀ d, ∃ r2, my_atoi m1 d str (pre.length + cs.length + 1) b = some (m, r2)) ∧
        (pre = [] → Nat.ofDigits b (cs.reverse.map digitValue) ≤ 2147483647 →
          Nat.ofDigits b (cs.map digitValue) ≤ 2147483647 →
          r = ((Nat.ofDigits b (cs.reverse.map digitValue) : Nat) : Int) ∧
          ∀ d, my_atoi m1 d str (pre.length + cs.length + 1) b
            = some (m, ((Nat.ofDigits b (cs.map digitValue) : Nat) : Int)))) := by
  by_cases h16 : b = 16
  · -- base 16: no reversal
    subst h16
    obtain ⟨r, hr⟩ := my_atoi_unfold_mem m data0 str (pre.length + cs.length + 1) 16
      (by decide) m (by rw [if_neg (by decide)])
    exact ⟨m, r, hr, fun _ => rfl, fun h => absurd rfl h⟩
  · have hb2 : b = 2 ∨ b = 10 := by omega
    obtain ⟨hcs, r, hr⟩ := my_atoi_radix_mem m data0 str b pre cs hb2 hpre hmem hne hdig hlen
    have hsplit := readBytes_append m str pre.length cs.length
    rw [hmem] at hsplit
    have hparts := List.append_inj hsplit (by rw [readBytes_length])
    -- the string after the first call
    have hmem1 : readBytes (writeList m (str + pre.length) cs.reverse) str
        (pre.length + cs.reverse.length) = pre ++ cs.reverse := by
      rw [readBytes_append]
      have hp : readBytes (writeList m (str + pre.length) cs.reverse) str pre.length
          = readBytes m str pre.length := by
        apply readBytes_congr
        intro i hi
        rw [writeList_outside _ _ _ _ (by omega)]
      rw [hp, readBytes_writeList, ← hparts.1]
    have hrestore : writeList (writeList m (str + pre.length) cs.reverse) (str + pre.length)
        cs.reverse.reverse = m := by
      rw [List.reverse_reverse]
      exact writeList_restore m (str + pre.length) cs hcs
    have hne1 : cs.reverse ≠ [] := by
      intro h; exact hne (List.reverse_eq_nil_iff.mp h)
    have hdig1 : ∀ c ∈ cs.reverse, isDigitChar b c :=
      fun c hc => hdig c (List.mem_reverse.mp hc)
    have hsecond : ∀ d, ∃ r2,
        my_atoi (writeList m (str + pre.length) cs.reverse) d str (pre.length + cs.length + 1) b
          = some (m, r2) := by
      intro d
      obtain ⟨-, r2, hr2⟩ := my_atoi_radix_mem (writeList m (str + pre.length) cs.reverse) d str b
        pre cs.reverse hb2 hpre hmem1 hne1 hdig1 (by rw [List.length_reverse]; exact hlen)
      rw [hrestore, List.length_reverse] at hr2
      exact ⟨r2, hr2⟩
    refine ⟨_, r, hr, fun h => absurd h h16, fun _ => ⟨?_, ?_, hsecond, ?_⟩⟩
    · rw [List.length_reverse] at hmem1
      exact hmem1
    · intro a ha
      rw [writeList_outside _ _ _ _ (by rw [List.length_reverse]; omega)]
    · intro hp hv1 hv2
      subst hp
      simp only [List.length_nil, Nat.zero_add, Nat.add_zero, List.nil_append] at *
      have hfirst := my_atoi_radix_value m data0 str b cs hb2 hmem hne hdig hlen hv1
      rw [hfirst] at hr
      have hreq := (Prod.mk.inj (Option.some.inj hr)).2
      refine ⟨hreq.symm, fun d => ?_⟩
      have hsec := my_atoi_radix_value (writeList m str cs.reverse) d str b cs.reverse hb2
        hmem1 hne1 hdig1
        (by rw [List.length_reverse]; exact hlen)
        (by rw [List.reverse_reverse]; exact hv2)
      rw [List.reverse_reverse, List.length_reverse, writeList_restore m str cs hmem] at hsec
      exact hsec

/-- Witness of C22: after `my_atoi("123\0", 4, 10)`, which returns 123, the buffer
holds `"321"`, and a second call returns 321 and leaves `"123"` again. -/
theorem my_atoi_reverses_string_witness :
    ∃ m1, my_atoi (writeList (constMem 0) 0 [49, 50, 51, 0]) 0 0 4 10 = some (m1, 123) ∧
      readBytes m1 0 3 = [51, 50, 49] ∧
      my_atoi m1 0 0 4 10 = some (writeList (constMem 0) 0 [49, 50, 51, 0], 321) := by
  obtain ⟨m1, r, hrun, -, hrest⟩ := my_atoi_reverses_string
    (writeList (constMem 0) 0 [49, 50, 51, 0]) 0 0 10 [] [49, 50, 51]
    (by decide) (by decide) (by decide) (by decide) (by decide) (by decide)
  obtain ⟨hbuf, -, -, hval⟩ := hrest (by decide)
  obtain ⟨hr, hsec⟩ := hval rfl (by decide) (by decide)
  subst hr
  exact ⟨m1, hrun, hbuf, hsec 0⟩

/-! ## stats.c, continued -/

/-- From 256 elements on the counter `j` of the inner loop, which stays below 256,
never reaches `size`. -/
theorem sort_inner_diverges (array size i : Nat) (hsize : 256 ≤ size) (fuel : Nat) :
    ∀ (m : Mem) (j : Nat), j < 256 → sort_inner array size i fuel m j = none := by
  induction fuel with
  | zero => intro m j _; rfl
  | succ fuel ih =>
    intro m j hj
    have hjs : j < size := by omega
    have hj1 : (j + 1) % 256 < 256 := Nat.mod_lt _ (by decide)
    simp only [sort_inner, if_pos hjs]
    split
    · exact ih _ _ hj1
    · exact ih _ _ hj1

/-- C23: `sort_array` returns exactly when `size <= 255`: for such a size both
loops exit (with fuel `size + 1`), and from 256 elements on the inner loop, whose
`uint8_t` counter `j` stays below 256, runs out of every amount of fuel. -/
theorem sort_array_terminates_iff (m : Mem) (array size : Nat) :
    ((∃ fuel m1, sort_array fuel m array size = some m1) ↔ size ≤ 255) ∧
    (256 ≤ size → ∀ fuel i j m0, j < 256 → sort_inner array size i fuel m0 j = none) := by
  refine ⟨?_, fun hsize fuel i j m0 hj => sort_inner_diverges array size i hsize fuel m0 j hj⟩
  constructor
  · rintro ⟨fuel, m1, h⟩
    by_contra hc
    have hsize : 256 ≤ size := by omega
    cases fuel with
    | zero => simp [sort_array, sort_outer] at h
    | succ f =>
      have hin := sort_inner_diverges array size 0 hsize f m ((0 + 1) % 256) (by decide)
      simp [sort_array, sort_outer, show 0 < size by omega, hin] at h
  · intro hsize
    obtain ⟨m1, hrun, -⟩ := sort_outer_spec array size hsize size 0 (size + 1) m
      (by omega) (by omega) (fun a b ha _ _ => by omega)
    exact ⟨size + 1, m1, hrun⟩

end EmbeddedC
